import Mathlib

/-!
A verification development for a compact binary codec.

Shallow embedding of the codec's encoder (`Serializer`), size-checker
(`SizeChecker`), slice reader (`SliceReader`) and decoder (`Deserializer`)
from `src/ser/mod.rs`, `src/de/mod.rs`, `src/de/read.rs` and `src/error.rs`,
together with theorems about round-tripping, size agreement, truncation,
limit enforcement and malformed-input rejection.

Machine integers are modelled as `Nat`/`Int` with explicit reduction
modulo `2 ^ w` where the source relies on fixed-width arithmetic; byte
buffers are `List Nat` whose elements are below 256 wherever the source
guarantees `u8` contents.  Floating-point values are carried as their
IEEE-754 bit patterns (the codec never interprets them, it only moves the
bytes).
-/

namespace Bincode

/-- The endianness policy: a static choice of byte order, parameterizing
every multi-byte read and write (`O::Endian` in the source). -/
inductive Endian where
  | little
  | big
deriving DecidableEq

/-- `ErrorKind` from `src/error.rs`.  Payloads are simplified where the
codec never inspects them: the `Utf8Error` detail of `InvalidUtf8Encoding`
and the `fmt::Error` of `Fmt` are dropped; `CapacityError` keeps the
rejected byte. -/
inductive ErrorKind where
  | Fmt
  | InvalidUtf8Encoding
  | InvalidBoolEncoding (b : Nat)
  | InvalidCharEncoding
  | InvalidTagEncoding (t : Nat)
  | DeserializeAnyNotSupported
  | SizeLimit
  | SequenceMustHaveLength
  | CapacityError (b : Nat)
  | Serde
deriving DecidableEq

/-- Modelled from the spec: the size-limit policy (`internal::SizeLimit`
together with its `Infinite`/`Bounded` instances lives in the crate's
`config`/`internal` modules, which are not under `src/`).  Per the spec it
is an accumulator that tracks how many wire bytes have been seen and fails
with `SizeLimit` when a configured cap would be exceeded; the unbounded
variant never fails.  `used` is the accumulated count, `rem` the remaining
budget of a bounded limit (`Option.none` for the unbounded limit). -/
structure Limit where
  used : Nat
  rem : Option Nat
deriving DecidableEq

/-- Modelled from the spec: adding a byte count to the size-limit
accumulator.  Unbounded limits only count; a bounded limit fails with
`SizeLimit` when the count exceeds the remaining budget, leaving the
accumulator unchanged, and otherwise decrements the budget. -/
def Limit.add (l : Limit) (n : Nat) : Except ErrorKind Limit :=
  match l.rem with
  | Option.none => .ok ⟨l.used + n, Option.none⟩
  | Option.some r =>
    if n ≤ r then .ok ⟨l.used + n, Option.some (r - n)⟩ else .error .SizeLimit

/-! ## Fixed-width integers on the wire

The source writes multi-byte integers through `byteorder`'s
`write_u16/…/write_u64` and reads them back with `read_u16/…`; these are
modelled as base-256 digit expansions, least significant byte first for
little endian and reversed for big endian. -/

/-- The little-endian base-256 digits of `v`, `w` bytes long (the result of
`LittleEndian::write_uN`). -/
def leBytes : Nat → Nat → List Nat
  | 0, _ => []
  | w + 1, v => v % 256 :: leBytes w (v / 256)

/-- The `w` wire bytes of `v` in endianness `e` (`O::Endian::write_uN`). -/
def writeN (e : Endian) (w v : Nat) : List Nat :=
  match e with
  | .little => leBytes w v
  | .big => (leBytes w v).reverse

/-- Read a little-endian base-256 expansion back into a `Nat`. -/
def leToNat : List Nat → Nat
  | [] => 0
  | b :: bs => b % 256 + 256 * leToNat bs

/-- Read the first `w` bytes of `bs` as an unsigned integer in endianness
`e` (`E::read_uN`). -/
def readN (e : Endian) (w : Nat) (bs : List Nat) : Nat :=
  match e with
  | .little => leToNat (bs.take w)
  | .big => leToNat (bs.take w).reverse

/-- Two's-complement wire pattern of a signed integer of `w` bytes
(`write_iN` writes the same bytes as `write_uN` of the reinterpreted
value). -/
def intToWire (w : Nat) (i : Int) : Nat := (i % ((2 : Int) ^ (8 * w))).toNat

/-- Signed reinterpretation of a `w`-byte unsigned wire value
(`read_iN`). -/
def intFromWire (w : Nat) (u : Nat) : Int :=
  if u < 2 ^ (8 * w - 1) then (u : Int) else (u : Int) - (2 : Int) ^ (8 * w)

/-! ## UTF-8 (`encode_utf8` from `src/ser/mod.rs`, width table from
`src/de/mod.rs`, and a model of `core::str::from_utf8`) -/

def TAG_CONT : Nat := 0x80
def TAG_TWO_B : Nat := 0xC0
def TAG_THREE_B : Nat := 0xE0
def TAG_FOUR_B : Nat := 0xF0
def MAX_ONE_B : Nat := 0x80
def MAX_TWO_B : Nat := 0x800
def MAX_THREE_B : Nat := 0x10000

/-- `encode_utf8` from `src/ser/mod.rs`: the 1–4 byte UTF-8 form of a code
point.  Shifts and masks are rendered arithmetically: `code >> 6 & 0x3F`
is `code / 64 % 64` and, the masked value being below the tag's low bits,
`| TAG` is `TAG + _`. -/
def encode_utf8 (code : Nat) : List Nat :=
  if code < MAX_ONE_B then
    [code % 256]
  else if code < MAX_TWO_B then
    [TAG_TWO_B + code / 64 % 32, TAG_CONT + code % 64]
  else if code < MAX_THREE_B then
    [TAG_THREE_B + code / 4096 % 16, TAG_CONT + code / 64 % 64, TAG_CONT + code % 64]
  else
    [TAG_FOUR_B + code / 262144 % 8, TAG_CONT + code / 4096 % 64,
      TAG_CONT + code / 64 % 64, TAG_CONT + code % 64]

/-- `UTF8_CHAR_WIDTH` from `src/de/mod.rs`: the 256-entry first-byte width
table. -/
def UTF8_CHAR_WIDTH : List Nat :=
  [1,1,1,1,1,1,1,1,1,1,1,1,1,1,1,1,
   1,1,1,1,1,1,1,1,1,1,1,1,1,1,1,1,
   1,1,1,1,1,1,1,1,1,1,1,1,1,1,1,1,
   1,1,1,1,1,1,1,1,1,1,1,1,1,1,1,1,
   1,1,1,1,1,1,1,1,1,1,1,1,1,1,1,1,
   1,1,1,1,1,1,1,1,1,1,1,1,1,1,1,1,
   1,1,1,1,1,1,1,1,1,1,1,1,1,1,1,1,
   1,1,1,1,1,1,1,1,1,1,1,1,1,1,1,1,
   0,0,0,0,0,0,0,0,0,0,0,0,0,0,0,0,
   0,0,0,0,0,0,0,0,0,0,0,0,0,0,0,0,
   0,0,0,0,0,0,0,0,0,0,0,0,0,0,0,0,
   0,0,0,0,0,0,0,0,0,0,0,0,0,0,0,0,
   0,0,2,2,2,2,2,2,2,2,2,2,2,2,2,2,
   2,2,2,2,2,2,2,2,2,2,2,2,2,2,2,2,
   3,3,3,3,3,3,3,3,3,3,3,3,3,3,3,3,
   4,4,4,4,4,0,0,0,0,0,0,0,0,0,0,0]

/-- `utf8_char_width` from `src/de/mod.rs`: table lookup by first byte. -/
def utf8_char_width (b : Nat) : Nat := UTF8_CHAR_WIDTH.getD b 0

/-- Whether `c` is a Unicode scalar value (the invariant of Rust's
`char`). -/
def isScalar (c : Nat) : Bool := c < 0x110000 && !(0xD800 ≤ c && c < 0xE000)

/-- Whether `b` is a UTF-8 continuation byte (`0b10xxxxxx`). -/
def isCont (b : Nat) : Bool := 0x80 ≤ b && b < 0xC0

/-- One step of UTF-8 decoding: the scalar value encoded at the head of the
byte list and the remaining bytes, or `none` if the head is malformed.
This models the per-character acceptance of `core::str::from_utf8`
(external standard-library code): continuation bytes must be `0b10xxxxxx`,
overlong forms, surrogates and out-of-range values are rejected. -/
def utf8DecodeOne : List Nat → Option (Nat × List Nat)
  | [] => Option.none
  | b :: rest =>
    if b < 0x80 then Option.some (b, rest)
    else if b < 0xC2 then Option.none
    else if b < 0xE0 then
      match rest with
      | b1 :: rest1 =>
        if isCont b1 then Option.some ((b - 0xC0) * 64 + (b1 - 0x80), rest1)
        else Option.none
      | [] => Option.none
    else if b < 0xF0 then
      match rest with
      | b1 :: b2 :: rest2 =>
        if isCont b1 && isCont b2 then
          let c := (b - 0xE0) * 4096 + (b1 - 0x80) * 64 + (b2 - 0x80)
          if 0x800 ≤ c && !(0xD800 ≤ c && c < 0xE000) then Option.some (c, rest2)
          else Option.none
        else Option.none
      | _ => Option.none
    else if b < 0xF5 then
      match rest with
      | b1 :: b2 :: b3 :: rest3 =>
        if isCont b1 && isCont b2 && isCont b3 then
          let c := (b - 0xF0) * 262144 + (b1 - 0x80) * 4096 + (b2 - 0x80) * 64 + (b3 - 0x80)
          if 0x10000 ≤ c && c < 0x110000 then Option.some (c, rest3)
          else Option.none
        else Option.none
      | _ => Option.none
    else Option.none

/-- Fuelled UTF-8 decoding loop; each step consumes at least one byte, so
fuel equal to the input length suffices. -/
def utf8DecodeLoop : Nat → List Nat → Option (List Nat)
  | _, [] => Option.some []
  | 0, _ :: _ => Option.none
  | fuel + 1, l =>
    match utf8DecodeOne l with
    | Option.some (c, rest) =>
      match utf8DecodeLoop fuel rest with
      | Option.some cs => Option.some (c :: cs)
      | Option.none => Option.none
    | Option.none => Option.none

/-- Model of `core::str::from_utf8`: the list of scalar values of a byte
string, or `none` if it is not valid UTF-8. -/
def utf8Decode (l : List Nat) : Option (List Nat) := utf8DecodeLoop l.length l

/-- The UTF-8 byte string of a list of scalar values (the bytes of a Rust
`&str` whose characters are `cs`). -/
def utf8Encode (cs : List Nat) : List Nat :=
  match cs with
  | [] => []
  | c :: rest => encode_utf8 c ++ utf8Encode rest

/-! ## The value universe and its shapes

The codec is driven by serde: the driver decomposes a user value into one
primitive call per node.  `Value` is the closed universe of trees such a
traversal can produce, and `Shape` is the type-directed skeleton the
decoder is asked to parse.  Signed integers are carried as `Int`, floats
as their bit patterns, characters and strings as Unicode scalar values. -/

inductive Value where
  | unit
  | bool (b : Bool)
  | u8 (n : Nat)
  | u16 (n : Nat)
  | u32 (n : Nat)
  | u64 (n : Nat)
  | i8 (i : Int)
  | i16 (i : Int)
  | i32 (i : Int)
  | i64 (i : Int)
  | f32 (bits : Nat)
  | f64 (bits : Nat)
  | char (c : Nat)
  | str (cs : List Nat)
  | bytes (bs : List Nat)
  | none
  | some (v : Value)
  | seq (vs : List Value)
  | map (ps : List (Value × Value))
  | tuple (vs : List Value)
  | variant (idx : Nat) (payload : Value)

inductive Shape where
  | unit
  | bool
  | u8
  | u16
  | u32
  | u64
  | i8
  | i16
  | i32
  | i64
  | f32
  | f64
  | char
  | str
  | bytes
  | option (s : Shape)
  | seq (s : Shape)
  | map (k v : Shape)
  | tuple (ss : List Shape)
  | enum (variants : List Shape)

/-! `hasShape s v` states that `v` is a tree the driver can produce for
shape `s`, including the machine-integer range invariants the Rust types
enforce (`u8` holds a byte, `char` a Unicode scalar value, lengths fit in
`u64`, variant indices in `u32`). -/

mutual

def hasShape : Shape → Value → Bool
  | .unit, .unit => true
  | .bool, .bool _ => true
  | .u8, .u8 n => n < 2 ^ 8
  | .u16, .u16 n => n < 2 ^ 16
  | .u32, .u32 n => n < 2 ^ 32
  | .u64, .u64 n => n < 2 ^ 64
  | .i8, .i8 i => -(2 ^ 7) ≤ i && i < 2 ^ 7
  | .i16, .i16 i => -(2 ^ 15) ≤ i && i < 2 ^ 15
  | .i32, .i32 i => -(2 ^ 31) ≤ i && i < 2 ^ 31
  | .i64, .i64 i => -(2 ^ 63) ≤ i && i < 2 ^ 63
  | .f32, .f32 bits => bits < 2 ^ 32
  | .f64, .f64 bits => bits < 2 ^ 64
  | .char, .char c => isScalar c
  | .str, .str cs => cs.all isScalar && (utf8Encode cs).length < 2 ^ 64
  | .bytes, .bytes bs => bs.all (· < 2 ^ 8) && bs.length < 2 ^ 64
  | .option _, .none => true
  | .option s, .some v => hasShape s v
  | .seq s, .seq vs => hasShapeList s vs && vs.length < 2 ^ 64
  | .map k v, .map ps => hasShapePairs k v ps && ps.length < 2 ^ 64
  | .tuple ss, .tuple vs => hasShapeTuple ss vs
  | .enum variants, .variant idx p =>
    decide (idx < 2 ^ 32) &&
      (match variants.get? idx with
       | Option.some s => hasShape s p
       | Option.none => false)
  | _, _ => false

def hasShapeList (s : Shape) : List Value → Bool
  | [] => true
  | v :: vs => hasShape s v && hasShapeList s vs

def hasShapePairs (k v : Shape) : List (Value × Value) → Bool
  | [] => true
  | (a, b) :: ps => hasShape k a && hasShape v b && hasShapePairs k v ps

def hasShapeTuple : List Shape → List Value → Bool
  | [], [] => true
  | s :: ss, v :: vs => hasShape s v && hasShapeTuple ss vs
  | _, _ => false

end

/-! ## Encoder (`Serializer` over an `ArrayVec`, `src/ser/mod.rs`)

The serializer owns a caller-provided bounded buffer and appends one byte
at a time with `try_push`; a full buffer yields `CapacityError`.  The
unused `_options` field is not modelled: the serializer never consults the
size limit. -/

/-- The `ArrayVec<A>` output buffer: contents plus fixed capacity. -/
structure SerState where
  data : List Nat
  cap : Nat
deriving DecidableEq

/-- Result of a serializer operation: the updated buffer, or an error
together with the buffer as it stood when the error occurred (Rust's
`&mut` buffer keeps its partial contents). -/
inductive SerRes where
  | ok (s : SerState)
  | err (e : ErrorKind) (s : SerState)
deriving DecidableEq

/-- `ArrayVec::try_push`: append if there is room, otherwise
`CapacityError` carrying the rejected byte. -/
def tryPush (st : SerState) (b : Nat) : SerRes :=
  if st.data.length < st.cap then .ok ⟨st.data ++ [b], st.cap⟩
  else .err (.CapacityError b) st

/-- Push a list of bytes one at a time (the `for &val in &buf` loops of
the serializer). -/
def pushAll (bs : List Nat) (st : SerState) : SerRes :=
  match bs with
  | [] => .ok st
  | b :: rest =>
    match tryPush st b with
    | .ok st1 => pushAll rest st1
    | .err e st1 => .err e st1

/-- `ArrayVecWrite::write_str` (`src/ser/mod.rs`): pushes each byte of the
formatted string, but `map_err(|_| fmt::Error)` discards the
`CapacityError`; through `collect_str`'s `?` and `From<fmt::Error>` the
failure surfaces as `ErrorKind::Fmt`.  A failed `try_push` leaves the
buffer unchanged, so the state keeps exactly the bytes pushed so far. -/
def write_str (bs : List Nat) (st : SerState) : SerRes :=
  match bs with
  | [] => .ok st
  | b :: rest =>
    match tryPush st b with
    | .ok st1 => write_str rest st1
    | .err _ st1 => .err .Fmt st1

/-- `Serializer::collect_str` (`src/ser/mod.rs`): remembers the current
buffer position, writes an 8-byte zero placeholder via `serialize_u64(0)`
(whose `try_push` failures keep their `CapacityError` kind), formats the
value's UTF-8 bytes through `ArrayVecWrite` (whose capacity failure
surfaces as `Fmt`), then back-patches the formatted byte length over the
placeholder with `O::Endian::write_u64`. -/
def collect_str (e : Endian) (bs : List Nat) (st : SerState) : SerRes :=
  let pos := st.data.length
  match pushAll (writeN e 8 0) st with
  | .err er st1 => .err er st1
  | .ok st1 =>
    match write_str bs st1 with
    | .err er st2 => .err er st2
    | .ok st2 =>
      let len := st2.data.length - pos - 8
      .ok ⟨st2.data.take pos ++ writeN e 8 len ++ st2.data.drop (pos + 8), st2.cap⟩

mutual

/-- The `serde::Serializer` impl for `Serializer` in `src/ser/mod.rs`,
applied by the driver to a `Value` tree.  Each case is the corresponding
`serialize_*` method. -/
def serValue (e : Endian) : Value → SerState → SerRes
  | .unit, st => .ok st
  | .bool b, st => tryPush st (if b then 1 else 0)
  | .u8 n, st => tryPush st n
  | .u16 n, st => pushAll (writeN e 2 n) st
  | .u32 n, st => pushAll (writeN e 4 n) st
  | .u64 n, st => pushAll (writeN e 8 n) st
  | .i8 i, st => tryPush st (intToWire 1 i)
  | .i16 i, st => pushAll (writeN e 2 (intToWire 2 i)) st
  | .i32 i, st => pushAll (writeN e 4 (intToWire 4 i)) st
  | .i64 i, st => pushAll (writeN e 8 (intToWire 8 i)) st
  | .f32 bits, st => pushAll (writeN e 4 bits) st
  | .f64 bits, st => pushAll (writeN e 8 bits) st
  | .char c, st => pushAll (encode_utf8 c) st
  | .str cs, st =>
    match pushAll (writeN e 8 (utf8Encode cs).length) st with
    | .ok st1 => pushAll (utf8Encode cs) st1
    | .err er st1 => .err er st1
  | .bytes bs, st =>
    match pushAll (writeN e 8 bs.length) st with
    | .ok st1 => pushAll bs st1
    | .err er st1 => .err er st1
  | .none, st => tryPush st 0
  | .some v, st =>
    match tryPush st 1 with
    | .ok st1 => serValue e v st1
    | .err er st1 => .err er st1
  | .seq vs, st =>
    match pushAll (writeN e 8 vs.length) st with
    | .ok st1 => serList e vs st1
    | .err er st1 => .err er st1
  | .map ps, st =>
    match pushAll (writeN e 8 ps.length) st with
    | .ok st1 => serPairs e ps st1
    | .err er st1 => .err er st1
  | .tuple vs, st => serList e vs st
  | .variant idx p, st =>
    match pushAll (writeN e 4 idx) st with
    | .ok st1 => serValue e p st1
    | .err er st1 => .err er st1

/-- Sequence/tuple elements in order (`SerializeSeq`/`SerializeTuple`). -/
def serList (e : Endian) : List Value → SerState → SerRes
  | [], st => .ok st
  | v :: vs, st =>
    match serValue e v st with
    | .ok st1 => serList e vs st1
    | .err er st1 => .err er st1

/-- Map pairs, key then value (`SerializeMap`). -/
def serPairs (e : Endian) : List (Value × Value) → SerState → SerRes
  | [], st => .ok st
  | (a, b) :: ps, st =>
    match serValue e a st with
    | .ok st1 =>
      match serValue e b st1 with
      | .ok st2 => serPairs e ps st2
      | .err er st2 => .err er st2
    | .err er st1 => .err er st1

end

mutual

/-- The pure byte string `serValue` appends for `v` when the buffer has
room (§4.1 wire framing, read off the serializer's push sequence). -/
def encBytes (e : Endian) : Value → List Nat
  | .unit => []
  | .bool b => [if b then 1 else 0]
  | .u8 n => [n]
  | .u16 n => writeN e 2 n
  | .u32 n => writeN e 4 n
  | .u64 n => writeN e 8 n
  | .i8 i => [intToWire 1 i]
  | .i16 i => writeN e 2 (intToWire 2 i)
  | .i32 i => writeN e 4 (intToWire 4 i)
  | .i64 i => writeN e 8 (intToWire 8 i)
  | .f32 bits => writeN e 4 bits
  | .f64 bits => writeN e 8 bits
  | .char c => encode_utf8 c
  | .str cs => writeN e 8 (utf8Encode cs).length ++ utf8Encode cs
  | .bytes bs => writeN e 8 bs.length ++ bs
  | .none => [0]
  | .some v => 1 :: encBytes e v
  | .seq vs => writeN e 8 vs.length ++ encBytesList e vs
  | .map ps => writeN e 8 ps.length ++ encBytesPairs e ps
  | .tuple vs => encBytesList e vs
  | .variant idx p => writeN e 4 idx ++ encBytes e p

def encBytesList (e : Endian) : List Value → List Nat
  | [] => []
  | v :: vs => encBytes e v ++ encBytesList e vs

def encBytesPairs (e : Endian) : List (Value × Value) → List Nat
  | [] => []
  | (a, b) :: ps => encBytes e a ++ encBytes e b ++ encBytesPairs e ps

end

/-! ## Size-checker (`SizeChecker`, `src/ser/mod.rs`)

A shadow encoder: each `serialize_*` method forwards the byte count it
would write to the size-limit policy (`add_value` adds `size_of_val`,
`add_raw` a raw count) and writes nothing. -/

mutual

def sizeCheckValue : Value → Limit → Except ErrorKind Limit
  | .unit, l => .ok l
  | .bool _, l => l.add 1
  | .u8 _, l => l.add 1
  | .u16 _, l => l.add 2
  | .u32 _, l => l.add 4
  | .u64 _, l => l.add 8
  | .i8 _, l => l.add 1
  | .i16 _, l => l.add 2
  | .i32 _, l => l.add 4
  | .i64 _, l => l.add 8
  | .f32 _, l => l.add 4
  | .f64 _, l => l.add 8
  | .char c, l => l.add (encode_utf8 c).length
  | .str cs, l =>
    match l.add 8 with
    | .ok l1 => l1.add (utf8Encode cs).length
    | .error er => .error er
  | .bytes bs, l =>
    match l.add 8 with
    | .ok l1 => l1.add bs.length
    | .error er => .error er
  | .none, l => l.add 1
  | .some v, l =>
    match l.add 1 with
    | .ok l1 => sizeCheckValue v l1
    | .error er => .error er
  | .seq vs, l =>
    match l.add 8 with
    | .ok l1 => sizeCheckList vs l1
    | .error er => .error er
  | .map ps, l =>
    match l.add 8 with
    | .ok l1 => sizeCheckPairs ps l1
    | .error er => .error er
  | .tuple vs, l => sizeCheckList vs l
  | .variant _ p, l =>
    match l.add 4 with
    | .ok l1 => sizeCheckValue p l1
    | .error er => .error er

def sizeCheckList : List Value → Limit → Except ErrorKind Limit
  | [], l => .ok l
  | v :: vs, l =>
    match sizeCheckValue v l with
    | .ok l1 => sizeCheckList vs l1
    | .error er => .error er

def sizeCheckPairs : List (Value × Value) → Limit → Except ErrorKind Limit
  | [], l => .ok l
  | (a, b) :: ps, l =>
    match sizeCheckValue a l with
    | .ok l1 =>
      match sizeCheckValue b l1 with
      | .ok l2 => sizeCheckPairs ps l2
      | .error er => .error er
    | .error er => .error er

end

/-! The number of bytes the decoder *accounts to the size limit* while
parsing the encoding of `v`: every framed read feeds its count to the
limit via `read_bytes`/`read_type` — except character decoding
(`deserialize_char` in `src/de/mod.rs` reads through `read_exact` without
touching the limit), so characters contribute zero. -/

mutual

def accSize : Value → Nat
  | .unit => 0
  | .bool _ => 1
  | .u8 _ => 1
  | .u16 _ => 2
  | .u32 _ => 4
  | .u64 _ => 8
  | .i8 _ => 1
  | .i16 _ => 2
  | .i32 _ => 4
  | .i64 _ => 8
  | .f32 _ => 4
  | .f64 _ => 8
  | .char _ => 0
  | .str cs => 8 + (utf8Encode cs).length
  | .bytes bs => 8 + bs.length
  | .none => 1
  | .some v => 1 + accSize v
  | .seq vs => 8 + accSizeList vs
  | .map ps => 8 + accSizePairs ps
  | .tuple vs => accSizeList vs
  | .variant _ p => 4 + accSize p

def accSizeList : List Value → Nat
  | [] => 0
  | v :: vs => accSize v + accSizeList vs

def accSizePairs : List (Value × Value) → Nat
  | [] => 0
  | (a, b) :: ps => accSize a + accSize b + accSizePairs ps

end

/-! Whether a value tree contains no `char` node (for such values the
decoder accounts every byte it consumes). -/

mutual

def charFree : Value → Bool
  | .char _ => false
  | .some v => charFree v
  | .seq vs => charFreeList vs
  | .map ps => charFreePairs ps
  | .tuple vs => charFreeList vs
  | .variant _ p => charFree p
  | _ => true

def charFreeList : List Value → Bool
  | [] => true
  | v :: vs => charFree v && charFreeList vs

def charFreePairs : List (Value × Value) → Bool
  | [] => true
  | (a, b) :: ps => charFree a && charFree b && charFreePairs ps

end

/-! ## Reader primitive (`SliceReader`, `src/de/read.rs`) and decoder
(`Deserializer`, `src/de/mod.rs`)

The decoder state is the unread suffix of the input slice plus the
injected size-limit accumulator (`options.limit()`). -/

structure DeState where
  slice : List Nat
  limit : Limit
deriving DecidableEq

/-- Result of a decoder operation: a value plus the updated state, or an
error plus the state as the failure left it (the Rust cursor and limit are
`&mut` and keep whatever progress was made). -/
inductive DeRes (α : Type) where
  | ok (a : α) (s : DeState)
  | err (e : ErrorKind) (s : DeState)

/-- `SliceReader::read_exact`: yield the next `n` bytes and advance, or
fail with `SizeLimit` (under-length) leaving the cursor in place. -/
def read_exact (n : Nat) (st : DeState) : DeRes (List Nat) :=
  if n > st.slice.length then .err .SizeLimit st
  else .ok (st.slice.take n) ⟨st.slice.drop n, st.limit⟩

/-- The `impl_read_nums` methods of `SliceReader` (`read_u16` … `read_f64`),
parameterized by the byte width `w`: decode a fixed-width value in
endianness `e` and advance, or fail with `SizeLimit`. -/
def read_num (e : Endian) (w : Nat) (st : DeState) : DeRes Nat :=
  if w > st.slice.length then .err .SizeLimit st
  else .ok (readN e w st.slice) ⟨st.slice.drop w, st.limit⟩

/-- `SliceReader::forward_read_str`: UTF-8-validate the next `length`
bytes and hand back their scalar values.  On under-length or invalid
UTF-8 the cursor does not advance. -/
def forward_read_str (length : Nat) (st : DeState) : DeRes (List Nat) :=
  if length > st.slice.length then .err .SizeLimit st
  else
    match utf8Decode (st.slice.take length) with
    | Option.none => .err .InvalidUtf8Encoding st
    | Option.some cs => .ok cs ⟨st.slice.drop length, st.limit⟩

/-- `SliceReader::forward_read_bytes`: hand back the next `length` raw
bytes, or fail with `SizeLimit`. -/
def forward_read_bytes (length : Nat) (st : DeState) : DeRes (List Nat) :=
  if length > st.slice.length then .err .SizeLimit st
  else .ok (st.slice.take length) ⟨st.slice.drop length, st.limit⟩

/-- `Deserializer::read_bytes`: account `count` bytes to the size limit
before they are consumed. -/
def de_read_bytes (count : Nat) (st : DeState) : DeRes Unit :=
  match st.limit.add count with
  | .ok l1 => .ok () ⟨st.slice, l1⟩
  | .error er => .err er st

/-- `Deserializer::deserialize_u8`: account one byte, then take the next
byte of the slice (failing with `SizeLimit` if it is empty). -/
def deserialize_u8 (st : DeState) : DeRes Nat :=
  match de_read_bytes 1 st with
  | .err er st1 => .err er st1
  | .ok _ st1 =>
    match st1.slice with
    | [] => .err .SizeLimit st1
    | b :: rest => .ok b ⟨rest, st1.limit⟩

/-- The `impl_nums` methods of the deserializer (`deserialize_u16` …):
account the width via `read_type`, then read through the slice reader. -/
def deserialize_num (e : Endian) (w : Nat) (st : DeState) : DeRes Nat :=
  match de_read_bytes w st with
  | .err er st1 => .err er st1
  | .ok _ st1 => read_num e w st1

/-- `Deserializer::deserialize_bool`: read one `u8`; 1 is `true`, 0 is
`false`, anything else `InvalidBoolEncoding`. -/
def deserialize_bool (st : DeState) : DeRes Bool :=
  match deserialize_u8 st with
  | .err er st1 => .err er st1
  | .ok b st1 =>
    if b = 1 then .ok true st1
    else if b = 0 then .ok false st1
    else .err (.InvalidBoolEncoding b) st1

/-- `Deserializer::deserialize_char`: look at the first byte to see how
many bytes must be read (`utf8_char_width`), read them, and validate the
span through `from_utf8`; a width of 0, missing continuation bytes or an
invalid span give `InvalidCharEncoding`. -/
def deserialize_char (st : DeState) : DeRes Nat :=
  match read_exact 1 st with
  | .err er st1 => .err er st1
  | .ok bs st1 =>
    match bs with
    | [] => .err .InvalidCharEncoding st1
    | b :: _ =>
      let width := utf8_char_width b
      if width = 1 then .ok b st1
      else if width = 0 then .err .InvalidCharEncoding st1
      else
        match read_exact (width - 1) st1 with
        | .err _ st2 => .err .InvalidCharEncoding st2
        | .ok bs2 st2 =>
          match utf8Decode (b :: bs2) with
          | Option.some (c :: _) => .ok c st2
          | _ => .err .InvalidCharEncoding st2

/-- `Deserializer::deserialize_str`: read the `u64` length, account it,
then forward the span through `forward_read_str`. -/
def deserialize_str (e : Endian) (st : DeState) : DeRes (List Nat) :=
  match deserialize_num e 8 st with
  | .err er st1 => .err er st1
  | .ok len st1 =>
    match de_read_bytes len st1 with
    | .err er st2 => .err er st2
    | .ok _ st2 => forward_read_str len st2

/-- `Deserializer::deserialize_bytes`: read the `u64` length, account it,
then forward the span through `forward_read_bytes`. -/
def deserialize_bytes (e : Endian) (st : DeState) : DeRes (List Nat) :=
  match deserialize_num e 8 st with
  | .err er st1 => .err er st1
  | .ok len st1 =>
    match de_read_bytes len st1 with
    | .err er st2 => .err er st2
    | .ok _ st2 => forward_read_bytes len st2

theorem shape_one_le_sizeOf : ∀ s : Shape, 1 ≤ sizeOf s := by
  intro s
  cases s <;> simp_arith

mutual

/-- The type-directed `serde::Deserializer` impl of `src/de/mod.rs`: one
parse per shape, handing the decoded node to the (standard, value-building)
visitor.  Signed widths go through `intFromWire` (`read_iN`), floats are
read as their bit patterns, sequence/map lengths as `u64`
(`deserialize_u64` is what `usize` deserialization dispatches to) and
variant indices as `u32`; an out-of-range variant index is rejected by the
derived visitor through `Error::custom`, i.e. `Serde`. -/
def deserValue (e : Endian) : Shape → DeState → DeRes Value
  | .unit, st => .ok .unit st
  | .bool, st =>
    match deserialize_bool st with
    | .ok b st1 => .ok (.bool b) st1
    | .err er st1 => .err er st1
  | .u8, st =>
    match deserialize_u8 st with
    | .ok n st1 => .ok (.u8 n) st1
    | .err er st1 => .err er st1
  | .u16, st =>
    match deserialize_num e 2 st with
    | .ok n st1 => .ok (.u16 n) st1
    | .err er st1 => .err er st1
  | .u32, st =>
    match deserialize_num e 4 st with
    | .ok n st1 => .ok (.u32 n) st1
    | .err er st1 => .err er st1
  | .u64, st =>
    match deserialize_num e 8 st with
    | .ok n st1 => .ok (.u64 n) st1
    | .err er st1 => .err er st1
  | .i8, st =>
    match deserialize_u8 st with
    | .ok n st1 => .ok (.i8 (intFromWire 1 n)) st1
    | .err er st1 => .err er st1
  | .i16, st =>
    match deserialize_num e 2 st with
    | .ok n st1 => .ok (.i16 (intFromWire 2 n)) st1
    | .err er st1 => .err er st1
  | .i32, st =>
    match deserialize_num e 4 st with
    | .ok n st1 => .ok (.i32 (intFromWire 4 n)) st1
    | .err er st1 => .err er st1
  | .i64, st =>
    match deserialize_num e 8 st with
    | .ok n st1 => .ok (.i64 (intFromWire 8 n)) st1
    | .err er st1 => .err er st1
  | .f32, st =>
    match deserialize_num e 4 st with
    | .ok bits st1 => .ok (.f32 bits) st1
    | .err er st1 => .err er st1
  | .f64, st =>
    match deserialize_num e 8 st with
    | .ok bits st1 => .ok (.f64 bits) st1
    | .err er st1 => .err er st1
  | .char, st =>
    match deserialize_char st with
    | .ok c st1 => .ok (.char c) st1
    | .err er st1 => .err er st1
  | .str, st =>
    match deserialize_str e st with
    | .ok cs st1 => .ok (.str cs) st1
    | .err er st1 => .err er st1
  | .bytes, st =>
    match deserialize_bytes e st with
    | .ok bs st1 => .ok (.bytes bs) st1
    | .err er st1 => .err er st1
  | .option s, st =>
    match deserialize_u8 st with
    | .err er st1 => .err er st1
    | .ok b st1 =>
      if b = 0 then .ok .none st1
      else if b = 1 then
        match deserValue e s st1 with
        | .ok v st2 => .ok (.some v) st2
        | .err er st2 => .err er st2
      else .err (.InvalidTagEncoding b) st1
  | .seq s, st =>
    match deserialize_num e 8 st with
    | .err er st1 => .err er st1
    | .ok len st1 =>
      match deserSeq e s len st1 with
      | .ok vs st2 => .ok (.seq vs) st2
      | .err er st2 => .err er st2
  | .map k v, st =>
    match deserialize_num e 8 st with
    | .err er st1 => .err er st1
    | .ok len st1 =>
      match deserMap e k v len st1 with
      | .ok ps st2 => .ok (.map ps) st2
      | .err er st2 => .err er st2
  | .tuple ss, st =>
    match deserTuple e ss st with
    | .ok vs st1 => .ok (.tuple vs) st1
    | .err er st1 => .err er st1
  | .enum variants, st =>
    match deserialize_num e 4 st with
    | .err er st1 => .err er st1
    | .ok idx st1 =>
      match h : variants.get? idx with
      | Option.some s =>
        match deserValue e s st1 with
        | .ok p st2 => .ok (.variant idx p) st2
        | .err er st2 => .err er st2
      | Option.none => .err .Serde st1
termination_by s _ => (sizeOf s, 0)
decreasing_by
  all_goals simp_wf
  all_goals
    first
    | (apply Prod.Lex.left
       first
       | omega
       | (have hm := List.sizeOf_lt_of_mem (List.get?_mem h)
          omega))
    | (apply Prod.Lex.right; omega)

/-- The `SeqAccess` loop of `deserialize_tuple`/`deserialize_seq`: decode
`n` further elements of shape `s`. -/
def deserSeq (e : Endian) (s : Shape) : Nat → DeState → DeRes (List Value)
  | 0, st => .ok [] st
  | n + 1, st =>
    match deserValue e s st with
    | .err er st1 => .err er st1
    | .ok v st1 =>
      match deserSeq e s n st1 with
      | .ok vs st2 => .ok (v :: vs) st2
      | .err er st2 => .err er st2
termination_by n _ => (sizeOf s, n + 1)
decreasing_by
  all_goals simp_wf
  all_goals apply Prod.Lex.right
  all_goals omega

/-- The `MapAccess` loop of `deserialize_map`: decode `n` further
key/value pairs. -/
def deserMap (e : Endian) (k v : Shape) : Nat → DeState → DeRes (List (Value × Value))
  | 0, st => .ok [] st
  | n + 1, st =>
    match deserValue e k st with
    | .err er st1 => .err er st1
    | .ok a st1 =>
      match deserValue e v st1 with
      | .err er st2 => .err er st2
      | .ok b st2 =>
        match deserMap e k v n st2 with
        | .ok ps st3 => .ok ((a, b) :: ps) st3
        | .err er st3 => .err er st3
termination_by n _ => (sizeOf k + sizeOf v, n + 1)
decreasing_by
  all_goals simp_wf
  all_goals
    first
    | (apply Prod.Lex.left
       have h1 := shape_one_le_sizeOf k
       have h2 := shape_one_le_sizeOf v
       omega)
    | (apply Prod.Lex.right; omega)

/-- Field-by-field decoding of a record or tuple (`deserialize_tuple`
driven by the derived visitor, one field shape at a time). -/
def deserTuple (e : Endian) : List Shape → DeState → DeRes (List Value)
  | [], st => .ok [] st
  | s :: ss, st =>
    match deserValue e s st with
    | .err er st1 => .err er st1
    | .ok v st1 =>
      match deserTuple e ss st1 with
      | .ok vs st2 => .ok (v :: vs) st2
      | .err er st2 => .err er st2
termination_by ss _ => (sizeOf ss, 0)
decreasing_by
  all_goals simp_wf
  all_goals apply Prod.Lex.left
  all_goals omega

end

/-- Modelled from the spec: the crate's top-level bounded `encode` entry
point (it lives in `lib.rs`, not under `src/`).  Per §4.4 and §8.4 of the
spec it pre-validates the value against the cap with the size-checker and
only then runs the serializer into the caller's buffer. -/
def encodeWithLimit (e : Endian) (c : Nat) (v : Value) : Except ErrorKind (List Nat) :=
  match sizeCheckValue v ⟨0, Option.some c⟩ with
  | .error er => .error er
  | .ok _ =>
    match serValue e v ⟨[], c⟩ with
    | .ok st => .ok st.data
    | .err er _ => .error er

/-! ## Basic facts about the size-limit accumulator -/

theorem Limit.add_ok_iff (l : Limit) (n : Nat) (l' : Limit) :
    l.add n = .ok l' ↔
      l' = ⟨l.used + n, l.rem.map (fun r => r - n)⟩ ∧
        (∀ r, l.rem = Option.some r → n ≤ r) := by
  obtain ⟨u, rem⟩ := l
  cases rem with
  | none =>
    simp only [Limit.add, Except.ok.injEq, Option.map_none']
    constructor
    · intro h
      exact ⟨h.symm, fun r hr => by cases hr⟩
    · intro h
      exact h.1.symm
  | some r =>
    simp only [Limit.add, Option.map_some']
    split
    · rename_i hle
      simp only [Except.ok.injEq]
      constructor
      · intro h
        exact ⟨h.symm, fun r' hr' => by cases hr'; exact hle⟩
      · intro h
        exact h.1.symm
    · rename_i hle
      constructor
      · intro h
        simp at h
      · intro h
        exact absurd (h.2 r rfl) hle

theorem Limit.add_err_kind (l : Limit) (n : Nat) (er : ErrorKind)
    (h : l.add n = .error er) : er = .SizeLimit := by
  obtain ⟨u, rem⟩ := l
  cases rem <;> simp [Limit.add] at h
  split at h
  · cases h
  · cases h; rfl

theorem Limit.add_infinite (u n : Nat) :
    Limit.add ⟨u, Option.none⟩ n = .ok ⟨u + n, Option.none⟩ := rfl

theorem Limit.add_zero (l : Limit) : l.add 0 = .ok l := by
  obtain ⟨u, rem⟩ := l
  cases rem with
  | none => rfl
  | some r => simp [Limit.add]

theorem Limit.add_state (l : Limit) (n : Nat) (l' : Limit) (h : l.add n = .ok l') :
    l'.used = l.used + n ∧ l'.rem = l.rem.map (fun r => r - n) := by
  rw [Limit.add_ok_iff] at h
  rw [h.1]
  exact ⟨rfl, rfl⟩

theorem Limit.add_le (l : Limit) (n m : Nat) (l' : Limit) (h : l.add n = .ok l')
    (hm : m ≤ n) : ∃ l1, l.add m = .ok l1 := by
  rw [Limit.add_ok_iff] at h
  exact ⟨_, by rw [Limit.add_ok_iff]; exact ⟨rfl, fun r hr => le_trans hm (h.2 r hr)⟩⟩

theorem Limit.add_split_ok (l : Limit) (a b : Nat) (l2 : Limit)
    (h : l.add (a + b) = .ok l2) :
    ∃ l1, l.add a = .ok l1 ∧ l1.add b = .ok l2 := by
  rw [Limit.add_ok_iff] at h
  refine ⟨⟨l.used + a, l.rem.map (fun r => r - a)⟩, ?_, ?_⟩
  · rw [Limit.add_ok_iff]
    exact ⟨rfl, fun r hr => by have := h.2 r hr; omega⟩
  · rw [Limit.add_ok_iff]
    obtain ⟨u, rem⟩ := l
    constructor
    · rw [h.1]
      cases rem with
      | none => simp [Nat.add_assoc]
      | some r => simp [Nat.add_assoc, Nat.sub_sub]
    · intro r' hr'
      cases rem with
      | none => cases hr'
      | some r =>
        simp only [Option.map_some', Option.some.injEq] at hr'
        have := h.2 r rfl
        omega

theorem Limit.add_split_err (l : Limit) (a b : Nat) (er : ErrorKind)
    (h : l.add (a + b) = .error er) :
    l.add a = .error .SizeLimit ∨
      ∃ l1, l.add a = .ok l1 ∧ l1.add b = .error .SizeLimit := by
  obtain ⟨u, rem⟩ := l
  cases rem with
  | none => simp [Limit.add] at h
  | some r =>
    simp only [Limit.add] at h ⊢
    split at h
    · cases h
    · rename_i hgt
      by_cases ha : a ≤ r
      · refine Or.inr ⟨⟨u + a, Option.some (r - a)⟩, by simp [ha], ?_⟩
        have hb : ¬(b ≤ r - a) := by omega
        simp [Limit.add, hb]
      · exact Or.inl (by simp [ha])

/-! ## Fixed-width wire integers -/

theorem leBytes_length (w v : Nat) : (leBytes w v).length = w := by
  induction w generalizing v with
  | zero => rfl
  | succ w ih => simp [leBytes, ih]

theorem writeN_length (e : Endian) (w v : Nat) : (writeN e w v).length = w := by
  cases e <;> simp [writeN, leBytes_length]

theorem leToNat_leBytes (w v : Nat) : leToNat (leBytes w v) = v % 2 ^ (8 * w) := by
  induction w generalizing v with
  | zero => simp [leBytes, leToNat, Nat.mod_one]
  | succ w ih =>
    have h256 : (2 : Nat) ^ (8 * (w + 1)) = 256 * 2 ^ (8 * w) := by
      rw [show 8 * (w + 1) = 8 + 8 * w by ring, pow_add]
      norm_num
    rw [leBytes, leToNat, ih, h256, Nat.mod_mul]
    omega

theorem readN_writeN (e : Endian) (w v : Nat) (rest : List Nat) (hv : v < 2 ^ (8 * w)) :
    readN e w (writeN e w v ++ rest) = v := by
  have hlen := leBytes_length w v
  have htake : ∀ L : List Nat, L.length = w → (L ++ rest).take w = L := by
    intro L hL
    rw [← hL, List.take_left]
  have htake1 : (leBytes w v ++ rest).take w = leBytes w v := htake _ hlen
  have htake2 : ((leBytes w v).reverse ++ rest).take w = (leBytes w v).reverse :=
    htake _ (by simp [hlen])
  cases e
  · simp only [readN, writeN, htake1]
    rw [leToNat_leBytes]
    exact Nat.mod_eq_of_lt hv
  · simp only [readN, writeN, htake2, List.reverse_reverse]
    rw [leToNat_leBytes]
    exact Nat.mod_eq_of_lt hv

theorem intToWire_lt (w : Nat) (i : Int) : intToWire w i < 2 ^ (8 * w) := by
  have hc : ((2 ^ (8 * w) : Nat) : Int) = (2 : Int) ^ (8 * w) := by push_cast; ring
  have hpos : (0 : Int) < 2 ^ (8 * w) := by positivity
  have h1 := Int.emod_lt_of_pos i hpos
  have h0 := Int.emod_nonneg i (ne_of_gt hpos)
  unfold intToWire
  omega

theorem intFromWire_intToWire (w : Nat) (i : Int) (hw : 1 ≤ w)
    (hlo : -(2 ^ (8 * w - 1)) ≤ i) (hhi : i < 2 ^ (8 * w - 1)) :
    intFromWire w (intToWire w i) = i := by
  have hdouble : (2 : Int) ^ (8 * w) = 2 ^ (8 * w - 1) * 2 := by
    conv_lhs => rw [show 8 * w = (8 * w - 1) + 1 by omega]
    rw [pow_succ]
  have hcpos : (0 : Int) < 2 ^ (8 * w - 1) := by positivity
  have hc1 : ((2 ^ (8 * w) : Nat) : Int) = (2 : Int) ^ (8 * w) := by push_cast; ring
  have hc2 : ((2 ^ (8 * w - 1) : Nat) : Int) = (2 : Int) ^ (8 * w - 1) := by push_cast; ring
  have hpos : (0 : Int) < 2 ^ (8 * w) := by positivity
  have hmod : i % 2 ^ (8 * w) = if 0 ≤ i then i else i + 2 ^ (8 * w) := by
    split <;> rename_i hsign
    · exact Int.emod_eq_of_lt hsign (by omega)
    · rw [show i = (i + 2 ^ (8 * w)) + 2 ^ (8 * w) * (-1) by ring,
        Int.add_mul_emod_self_left]
      have hb0 : (0 : Int) ≤ i + 2 ^ (8 * w) := by omega
      have hb1 : i + 2 ^ (8 * w) < 2 ^ (8 * w) := by omega
      rw [Int.emod_eq_of_lt hb0 hb1]
      ring
  rcases le_or_lt 0 i with hsign | hsign
  · rw [if_pos hsign] at hmod
    unfold intToWire intFromWire
    rw [hmod]
    split <;> rename_i hlt <;> omega
  · rw [if_neg (by omega)] at hmod
    unfold intToWire intFromWire
    rw [hmod]
    split <;> rename_i hlt <;> omega

/-! ## UTF-8 facts -/

set_option maxRecDepth 2000 in
theorem utf8_char_width_eq : ∀ b, b < 256 → utf8_char_width b =
    (if b < 0x80 then 1 else if b < 0xC2 then 0 else if b < 0xE0 then 2
     else if b < 0xF0 then 3 else if b < 0xF5 then 4 else 0) := by decide

set_option maxRecDepth 2000 in
theorem UTF8_CHAR_WIDTH_length : UTF8_CHAR_WIDTH.length = 256 := by decide

theorem utf8_char_width_of_ge (b : Nat) (hb : 256 ≤ b) : utf8_char_width b = 0 :=
  List.getD_eq_default _ _ (le_trans (le_of_eq UTF8_CHAR_WIDTH_length) hb)

theorem utf8_char_width_le (b : Nat) : utf8_char_width b ≤ 4 := by
  rcases lt_or_le b 256 with hb | hb
  · rw [utf8_char_width_eq b hb]
    split_ifs <;> omega
  · rw [utf8_char_width_of_ge b hb]
    omega

theorem encode_utf8_one (c : Nat) (h : c < 0x80) : encode_utf8 c = [c] := by
  unfold encode_utf8
  rw [if_pos (by simpa [MAX_ONE_B] using h)]
  congr 1
  omega

theorem encode_utf8_two (c : Nat) (h1 : 0x80 ≤ c) (h2 : c < 0x800) :
    encode_utf8 c = [0xC0 + c / 64 % 32, 0x80 + c % 64] := by
  unfold encode_utf8
  rw [if_neg (by simp [MAX_ONE_B]; omega), if_pos (by simpa [MAX_TWO_B] using h2)]
  rfl

theorem encode_utf8_three (c : Nat) (h1 : 0x800 ≤ c) (h2 : c < 0x10000) :
    encode_utf8 c = [0xE0 + c / 4096 % 16, 0x80 + c / 64 % 64, 0x80 + c % 64] := by
  unfold encode_utf8
  rw [if_neg (by simp [MAX_ONE_B]; omega), if_neg (by simp [MAX_TWO_B]; omega),
    if_pos (by simpa [MAX_THREE_B] using h2)]
  rfl

theorem encode_utf8_four (c : Nat) (h1 : 0x10000 ≤ c) :
    encode_utf8 c =
      [0xF0 + c / 262144 % 8, 0x80 + c / 4096 % 64, 0x80 + c / 64 % 64, 0x80 + c % 64] := by
  unfold encode_utf8
  rw [if_neg (by simp [MAX_ONE_B]; omega), if_neg (by simp [MAX_TWO_B]; omega),
    if_neg (by simp [MAX_THREE_B]; omega)]
  rfl

theorem encode_utf8_length_pos (c : Nat) : 1 ≤ (encode_utf8 c).length := by
  unfold encode_utf8
  split <;> try split <;> try split
  all_goals simp

theorem utf8DecodeOne_encode_utf8 (c : Nat) (hc : isScalar c = true) (rest : List Nat) :
    utf8DecodeOne (encode_utf8 c ++ rest) = Option.some (c, rest) := by
  simp only [isScalar, Bool.and_eq_true, decide_eq_true_eq, Bool.not_eq_true',
    Bool.and_eq_false_iff, decide_eq_false_iff_not, not_lt, not_le] at hc
  obtain ⟨hlt, hsur⟩ := hc
  rcases lt_or_le c 0x80 with h1 | h1
  · rw [encode_utf8_one c h1]
    simp only [List.cons_append, List.nil_append, utf8DecodeOne]
    rw [if_pos h1]
  · rcases lt_or_le c 0x800 with h2 | h2
    · rw [encode_utf8_two c h1 h2]
      simp only [List.cons_append, List.nil_append, utf8DecodeOne]
      rw [if_neg (by omega), if_neg (by omega), if_pos (by omega),
        if_pos (by simp [isCont]; omega)]
      have hval : (0xC0 + c / 64 % 32 - 0xC0) * 64 + (0x80 + c % 64 - 0x80) = c := by omega
      rw [hval]
    · rcases lt_or_le c 0x10000 with h3 | h3
      · rw [encode_utf8_three c h2 h3]
        simp only [List.cons_append, List.nil_append, utf8DecodeOne]
        rw [if_neg (by omega), if_neg (by omega), if_neg (by omega), if_pos (by omega)]
        rw [if_pos (by simp [isCont]; omega)]
        have hval : (0xE0 + c / 4096 % 16 - 0xE0) * 4096 + (0x80 + c / 64 % 64 - 0x80) * 64 +
            (0x80 + c % 64 - 0x80) = c := by omega
        rw [if_pos]
        · simp only [hval]
        · simp only [hval, Bool.and_eq_true, decide_eq_true_eq, Bool.not_eq_true',
            Bool.and_eq_false_iff, decide_eq_false_iff_not, not_lt, not_le]
          constructor
          · omega
          · rcases hsur with h | h
            · exact Or.inl (by omega)
            · exact Or.inr (by omega)
      · rw [encode_utf8_four c h3]
        simp only [List.cons_append, List.nil_append, utf8DecodeOne]
        rw [if_neg (by omega), if_neg (by omega), if_neg (by omega), if_neg (by omega),
          if_pos (by omega)]
        rw [if_pos (by simp [isCont]; omega)]
        have hval : (0xF0 + c / 262144 % 8 - 0xF0) * 262144 + (0x80 + c / 4096 % 64 - 0x80) * 4096 +
            (0x80 + c / 64 % 64 - 0x80) * 64 + (0x80 + c % 64 - 0x80) = c := by omega
        rw [if_pos]
        · simp only [hval]
        · simp only [hval, Bool.and_eq_true, decide_eq_true_eq]
          omega

theorem utf8Encode_length (cs : List Nat) :
    (utf8Encode cs).length = cs.foldr (fun c acc => (encode_utf8 c).length + acc) 0 := by
  induction cs with
  | nil => rfl
  | cons c cs ih => simp [utf8Encode, ih]

theorem utf8DecodeLoop_encode (cs : List Nat) (hcs : cs.all isScalar = true) :
    ∀ fuel, (utf8Encode cs).length ≤ fuel → utf8DecodeLoop fuel (utf8Encode cs) =
      Option.some cs := by
  induction cs with
  | nil => intro fuel _; cases fuel <;> rfl
  | cons c cs ih =>
    simp only [List.all_cons, Bool.and_eq_true] at hcs
    intro fuel hfuel
    have hpos := encode_utf8_length_pos c
    have hne : utf8Encode (c :: cs) ≠ [] := by
      intro h
      have h2 : encode_utf8 c ++ utf8Encode cs = [] := h
      rw [List.append_eq_nil] at h2
      rw [h2.1] at hpos
      simp at hpos
    cases fuel with
    | zero =>
      exfalso
      have h1 : (encode_utf8 c ++ utf8Encode cs).length ≤ 0 := hfuel
      rw [List.length_append] at h1
      omega
    | succ fuel =>
      have hrec : utf8DecodeLoop fuel (utf8Encode cs) = Option.some cs := by
        apply ih hcs.2
        have h1 : (encode_utf8 c ++ utf8Encode cs).length ≤ fuel + 1 := hfuel
        rw [List.length_append] at h1
        omega
      cases hbl : utf8Encode (c :: cs) with
      | nil => exact absurd hbl hne
      | cons b l =>
        have hdec : utf8DecodeOne (b :: l) = Option.some (c, utf8Encode cs) := by
          rw [← hbl]
          exact utf8DecodeOne_encode_utf8 c hcs.1 (utf8Encode cs)
        rw [show utf8DecodeLoop (fuel + 1) (b :: l) =
            (match utf8DecodeOne (b :: l) with
             | Option.some (c, rest) =>
               match utf8DecodeLoop fuel rest with
               | Option.some cs => Option.some (c :: cs)
               | Option.none => Option.none
             | Option.none => Option.none) from rfl]
        rw [hdec]
        show (match utf8DecodeLoop fuel (utf8Encode cs) with
              | Option.some cs2 => Option.some (c :: cs2)
              | Option.none => Option.none) = Option.some (c :: cs)
        rw [hrec]

theorem utf8Decode_utf8Encode (cs : List Nat) (hcs : cs.all isScalar = true) :
    utf8Decode (utf8Encode cs) = Option.some cs := by
  unfold utf8Decode
  exact utf8DecodeLoop_encode cs hcs _ (le_refl _)

theorem utf8Decode_encode_utf8 (c : Nat) (hc : isScalar c = true) :
    utf8Decode (encode_utf8 c) = Option.some [c] := by
  have h := utf8Decode_utf8Encode [c] (by simp [hc])
  rw [show utf8Encode [c] = encode_utf8 c ++ [] from rfl, List.append_nil] at h
  exact h

theorem encode_utf8_head_width (c : Nat) (hc : isScalar c = true) :
    ∃ b0 tail, encode_utf8 c = b0 :: tail ∧ utf8_char_width b0 = tail.length + 1 ∧
      (tail = [] → b0 = c) := by
  simp only [isScalar, Bool.and_eq_true, decide_eq_true_eq, Bool.not_eq_true',
    Bool.and_eq_false_iff, decide_eq_false_iff_not, not_lt, not_le] at hc
  obtain ⟨hlt, _⟩ := hc
  rcases lt_or_le c 0x80 with h1 | h1
  · refine ⟨c, [], encode_utf8_one c h1, ?_, fun _ => rfl⟩
    rw [utf8_char_width_eq c (by omega), if_pos h1]
    rfl
  · rcases lt_or_le c 0x800 with h2 | h2
    · refine ⟨0xC0 + c / 64 % 32, [0x80 + c % 64], encode_utf8_two c h1 h2, ?_, by simp⟩
      rw [utf8_char_width_eq _ (by omega), if_neg (by omega), if_neg (by omega),
        if_pos (by omega)]
      rfl
    · rcases lt_or_le c 0x10000 with h3 | h3
      · refine ⟨0xE0 + c / 4096 % 16, [0x80 + c / 64 % 64, 0x80 + c % 64],
          encode_utf8_three c h2 h3, ?_, by simp⟩
        rw [utf8_char_width_eq _ (by omega), if_neg (by omega), if_neg (by omega),
          if_neg (by omega), if_pos (by omega)]
        rfl
      · refine ⟨0xF0 + c / 262144 % 8, [0x80 + c / 4096 % 64, 0x80 + c / 64 % 64, 0x80 + c % 64],
          encode_utf8_four c h3, ?_, by simp⟩
        rw [utf8_char_width_eq _ (by omega), if_neg (by omega), if_neg (by omega),
          if_neg (by omega), if_neg (by omega), if_pos (by omega)]
        rfl

/-! ## The encoder appends exactly `encBytes` -/

theorem pushAll_append (xs ys : List Nat) (st : SerState) :
    pushAll (xs ++ ys) st =
      match pushAll xs st with
      | .ok st1 => pushAll ys st1
      | .err er st1 => .err er st1 := by
  induction xs generalizing st with
  | nil => simp [pushAll]
  | cons b bs ih =>
    simp only [List.cons_append, pushAll]
    cases h : tryPush st b with
    | ok st1 => simp [h, ih]
    | err er st1 => simp [h]

theorem pushAll_singleton (b : Nat) (st : SerState) : pushAll [b] st = tryPush st b := by
  cases h : tryPush st b with
  | ok st1 => simp [pushAll, h]
  | err er st1 => simp [pushAll, h]

theorem pushAll_ok (bs : List Nat) (st : SerState)
    (h : st.data.length + bs.length ≤ st.cap) :
    pushAll bs st = .ok ⟨st.data ++ bs, st.cap⟩ := by
  induction bs generalizing st with
  | nil =>
    obtain ⟨data, cap⟩ := st
    simp [pushAll]
  | cons b bs ih =>
    obtain ⟨data, cap⟩ := st
    simp only [List.length_cons] at h
    simp only [pushAll, tryPush]
    rw [if_pos (show data.length < cap by omega)]
    show pushAll bs ⟨data ++ [b], cap⟩ = .ok ⟨data ++ b :: bs, cap⟩
    rw [ih ⟨data ++ [b], cap⟩ (by simp; omega)]
    simp

theorem pushAll_err (bs : List Nat) (st : SerState)
    (hst : st.data.length ≤ st.cap)
    (h : st.cap < st.data.length + bs.length) :
    ∃ b st1, pushAll bs st = .err (.CapacityError b) st1 := by
  induction bs generalizing st with
  | nil =>
    exfalso
    simp at h
    omega
  | cons b bs ih =>
    obtain ⟨data, cap⟩ := st
    simp only [List.length_cons] at h
    by_cases hfull : data.length < cap
    · simp only [pushAll, tryPush]
      rw [if_pos hfull]
      show ∃ b1 st1, pushAll bs ⟨data ++ [b], cap⟩ = .err (.CapacityError b1) st1
      exact ih ⟨data ++ [b], cap⟩ (by simp; omega) (by simp; omega)
    · simp only [pushAll, tryPush]
      rw [if_neg hfull]
      exact ⟨b, _, rfl⟩

theorem value_one_le_sizeOf (v : Value) : 1 ≤ sizeOf v := by
  cases v <;> simp_arith

theorem serValue_eq_pushAll_aux :
    ∀ N, ∀ v : Value, sizeOf v ≤ N → ∀ (e : Endian) (st : SerState),
      serValue e v st = pushAll (encBytes e v) st := by
  intro N
  induction N with
  | zero =>
    intro v hv
    exact absurd hv (by have := value_one_le_sizeOf v; omega)
  | succ N ih =>
    intro v hv e st
    have ihList : ∀ vs : List Value, (∀ x ∈ vs, sizeOf x ≤ N) → ∀ st1,
        serList e vs st1 = pushAll (encBytesList e vs) st1 := by
      intro vs hvs
      induction vs with
      | nil => intro st1; rfl
      | cons x xs ihx =>
        intro st1
        simp only [serList, encBytesList]
        rw [pushAll_append, ih x (hvs x (List.mem_cons_self x xs)) e st1]
        cases h : pushAll (encBytes e x) st1 with
        | ok st2 =>
          simp only [h]
          exact ihx (fun y hy => hvs y (List.mem_cons_of_mem x hy)) st2
        | err er st2 => simp only [h]
    have ihPairs : ∀ ps : List (Value × Value),
        (∀ x ∈ ps, sizeOf x.1 ≤ N ∧ sizeOf x.2 ≤ N) → ∀ st1,
        serPairs e ps st1 = pushAll (encBytesPairs e ps) st1 := by
      intro ps hps
      induction ps with
      | nil => intro st1; rfl
      | cons x xs ihx =>
        obtain ⟨a, b⟩ := x
        intro st1
        simp only [serPairs, encBytesPairs]
        rw [List.append_assoc, pushAll_append,
          ih a (hps (a, b) (List.mem_cons_self _ xs)).1 e st1]
        cases h : pushAll (encBytes e a) st1 with
        | ok st2 =>
          simp only [h]
          rw [pushAll_append, ih b (hps (a, b) (List.mem_cons_self _ xs)).2 e st2]
          cases h2 : pushAll (encBytes e b) st2 with
          | ok st3 =>
            simp only [h2]
            exact ihx (fun y hy => hps y (List.mem_cons_of_mem _ hy)) st3
          | err er st3 => simp only [h2]
        | err er st2 => simp only [h]
    cases v with
    | unit => rfl
    | bool b =>
      simp only [serValue, encBytes, pushAll_singleton]
    | u8 n =>
      simp only [serValue, encBytes, pushAll_singleton]
    | u16 n => rfl
    | u32 n => rfl
    | u64 n => rfl
    | i8 i =>
      simp only [serValue, encBytes, pushAll_singleton]
    | i16 i => rfl
    | i32 i => rfl
    | i64 i => rfl
    | f32 bits => rfl
    | f64 bits => rfl
    | char c => rfl
    | str cs =>
      simp only [serValue, encBytes]
      rw [pushAll_append]
    | bytes bs =>
      simp only [serValue, encBytes]
      rw [pushAll_append]
    | none =>
      simp only [serValue, encBytes, pushAll_singleton]
    | some v =>
      simp only [serValue, encBytes, pushAll]
      simp at hv
      cases h : tryPush st 1 with
      | ok st1 =>
        simp only [h]
        exact ih v (by omega) e st1
      | err er st1 => simp only [h]
    | seq vs =>
      simp only [serValue, encBytes]
      rw [pushAll_append]
      have hvs : sizeOf vs ≤ N := by
        simp at hv
        omega
      cases h : pushAll (writeN e 8 vs.length) st with
      | ok st1 =>
        simp only [h]
        exact ihList vs
          (fun x hx => by have := List.sizeOf_lt_of_mem hx; omega) st1
      | err er st1 => simp only [h]
    | map ps =>
      simp only [serValue, encBytes]
      rw [pushAll_append]
      have hps : sizeOf ps ≤ N := by
        simp at hv
        omega
      cases h : pushAll (writeN e 8 ps.length) st with
      | ok st1 =>
        simp only [h]
        refine ihPairs ps (fun x hx => ?_) st1
        obtain ⟨a, b⟩ := x
        have := List.sizeOf_lt_of_mem hx
        simp at this
        constructor <;> simp <;> omega
      | err er st1 => simp only [h]
    | tuple vs =>
      simp only [serValue, encBytes]
      have hvs : sizeOf vs ≤ N := by
        simp at hv
        omega
      exact ihList vs (fun x hx => by have := List.sizeOf_lt_of_mem hx; omega) st
    | variant idx p =>
      simp only [serValue, encBytes]
      rw [pushAll_append]
      have hp : sizeOf p ≤ N := by
        simp at hv
        omega
      cases h : pushAll (writeN e 4 idx) st with
      | ok st1 =>
        simp only [h]
        exact ih p hp e st1
      | err er st1 => simp only [h]

/-- `serValue` is `pushAll` of the pure framing bytes. -/
theorem serValue_eq_pushAll (e : Endian) (v : Value) (st : SerState) :
    serValue e v st = pushAll (encBytes e v) st :=
  serValue_eq_pushAll_aux (sizeOf v) v (le_refl _) e st

theorem serValue_ok (e : Endian) (v : Value) (st : SerState)
    (h : st.data.length + (encBytes e v).length ≤ st.cap) :
    serValue e v st = .ok ⟨st.data ++ encBytes e v, st.cap⟩ := by
  rw [serValue_eq_pushAll]
  exact pushAll_ok _ _ h

theorem serValue_err (e : Endian) (v : Value) (st : SerState)
    (hst : st.data.length ≤ st.cap)
    (h : st.cap < st.data.length + (encBytes e v).length) :
    ∃ b st1, serValue e v st = .err (.CapacityError b) st1 := by
  rw [serValue_eq_pushAll]
  exact pushAll_err _ _ hst h

theorem serValue_ok_inv (e : Endian) (v : Value) (cap : Nat) (st' : SerState)
    (h : serValue e v ⟨[], cap⟩ = .ok st') :
    st' = ⟨encBytes e v, cap⟩ ∧ (encBytes e v).length ≤ cap := by
  by_cases hc : (encBytes e v).length ≤ cap
  · rw [serValue_ok e v ⟨[], cap⟩ (by simpa using hc)] at h
    cases h
    exact ⟨by simp, hc⟩
  · obtain ⟨b, st1, herr⟩ := serValue_err e v ⟨[], cap⟩ (by simp) (by simp; omega)
    rw [herr] at h
    cases h

/-! ## The size-checker accounts exactly the encoded length -/

theorem Limit.add_chain (l : Limit) (a b : Nat) :
    (match l.add a with
     | .ok l1 => l1.add b
     | .error er => Except.error er) = l.add (a + b) := by
  cases h : l.add (a + b) with
  | ok l2 =>
    obtain ⟨l1, h1, h2⟩ := Limit.add_split_ok l a b l2 h
    simp [h1, h2]
  | error er =>
    have hk := Limit.add_err_kind _ _ _ h
    subst hk
    rcases Limit.add_split_err l a b _ h with h1 | ⟨l1, h1, h2⟩
    · simp [h1]
    · simp [h1, h2]

theorem sizeCheckValue_spec_aux :
    ∀ N, ∀ v : Value, sizeOf v ≤ N → ∀ (e : Endian) (l : Limit),
      sizeCheckValue v l = l.add (encBytes e v).length := by
  intro N
  induction N with
  | zero =>
    intro v hv
    exact absurd hv (by have := value_one_le_sizeOf v; omega)
  | succ N ih =>
    intro v hv e l
    have ihList : ∀ vs : List Value, (∀ x ∈ vs, sizeOf x ≤ N) → ∀ l1,
        sizeCheckList vs l1 = l1.add (encBytesList e vs).length := by
      intro vs hvs
      induction vs with
      | nil =>
        intro l1
        simp [sizeCheckList, encBytesList, Limit.add_zero]
      | cons x xs ihx =>
        intro l1
        simp only [sizeCheckList, encBytesList, List.length_append]
        rw [← Limit.add_chain, ih x (hvs x (List.mem_cons_self x xs)) e]
        cases h : l1.add (encBytes e x).length with
        | ok l2 =>
          simp only [h]
          exact ihx (fun y hy => hvs y (List.mem_cons_of_mem x hy)) l2
        | error er => simp only [h]
    have ihPairs : ∀ ps : List (Value × Value),
        (∀ x ∈ ps, sizeOf x.1 ≤ N ∧ sizeOf x.2 ≤ N) → ∀ l1,
        sizeCheckPairs ps l1 = l1.add (encBytesPairs e ps).length := by
      intro ps hps
      induction ps with
      | nil =>
        intro l1
        simp [sizeCheckPairs, encBytesPairs, Limit.add_zero]
      | cons x xs ihx =>
        obtain ⟨a, b⟩ := x
        intro l1
        simp only [sizeCheckPairs, encBytesPairs, List.append_assoc, List.length_append]
        rw [← Nat.add_assoc, ← Limit.add_chain, ← Limit.add_chain,
          ih a (hps (a, b) (List.mem_cons_self _ xs)).1 e]
        cases h : l1.add (encBytes e a).length with
        | ok l2 =>
          simp only [h]
          rw [ih b (hps (a, b) (List.mem_cons_self _ xs)).2 e]
          cases h2 : l2.add (encBytes e b).length with
          | ok l3 =>
            simp only [h2]
            exact ihx (fun y hy => hps y (List.mem_cons_of_mem _ hy)) l3
          | error er => simp only [h2]
        | error er => simp only [h]
    cases v with
    | unit => simp [sizeCheckValue, encBytes, Limit.add_zero]
    | bool b => simp [sizeCheckValue, encBytes]
    | u8 n => simp [sizeCheckValue, encBytes]
    | u16 n => simp [sizeCheckValue, encBytes, writeN_length]
    | u32 n => simp [sizeCheckValue, encBytes, writeN_length]
    | u64 n => simp [sizeCheckValue, encBytes, writeN_length]
    | i8 i => simp [sizeCheckValue, encBytes]
    | i16 i => simp [sizeCheckValue, encBytes, writeN_length]
    | i32 i => simp [sizeCheckValue, encBytes, writeN_length]
    | i64 i => simp [sizeCheckValue, encBytes, writeN_length]
    | f32 bits => simp [sizeCheckValue, encBytes, writeN_length]
    | f64 bits => simp [sizeCheckValue, encBytes, writeN_length]
    | char c => simp [sizeCheckValue, encBytes]
    | str cs =>
      simp only [sizeCheckValue, encBytes, List.length_append, writeN_length]
      rw [← Limit.add_chain]
    | bytes bs =>
      simp only [sizeCheckValue, encBytes, List.length_append, writeN_length]
      rw [← Limit.add_chain]
    | none => simp [sizeCheckValue, encBytes]
    | some v =>
      simp only [sizeCheckValue, encBytes, List.length_cons]
      rw [show (encBytes e v).length + 1 = 1 + (encBytes e v).length by omega,
        ← Limit.add_chain]
      cases h : l.add 1 with
      | ok l1 =>
        simp only [h]
        simp at hv
        exact ih v (by omega) e l1
      | error er => simp only [h]
    | seq vs =>
      simp only [sizeCheckValue, encBytes, List.length_append, writeN_length]
      rw [← Limit.add_chain]
      simp at hv
      cases h : l.add 8 with
      | ok l1 =>
        simp only [h]
        exact ihList vs (fun x hx => by have := List.sizeOf_lt_of_mem hx; omega) l1
      | error er => simp only [h]
    | map ps =>
      simp only [sizeCheckValue, encBytes, List.length_append, writeN_length]
      rw [← Limit.add_chain]
      simp at hv
      cases h : l.add 8 with
      | ok l1 =>
        simp only [h]
        refine ihPairs ps (fun x hx => ?_) l1
        obtain ⟨a, b⟩ := x
        have := List.sizeOf_lt_of_mem hx
        simp at this
        constructor <;> simp <;> omega
      | error er => simp only [h]
    | tuple vs =>
      simp only [sizeCheckValue, encBytes]
      simp at hv
      exact ihList vs (fun x hx => by have := List.sizeOf_lt_of_mem hx; omega) l
    | variant idx p =>
      simp only [sizeCheckValue, encBytes, List.length_append, writeN_length]
      rw [← Limit.add_chain]
      simp at hv
      cases h : l.add 4 with
      | ok l1 =>
        simp only [h]
        exact ih p (by omega) e l1
      | error er => simp only [h]

/-- The size-checker forwards to the limit exactly the number of bytes the
encoder would write. -/
theorem sizeCheckValue_spec (v : Value) (e : Endian) (l : Limit) :
    sizeCheckValue v l = l.add (encBytes e v).length :=
  sizeCheckValue_spec_aux (sizeOf v) v (le_refl _) e l

/-! ## The decoder-accounted size is at most the encoded length, with
equality for `char`-free values -/

theorem accSize_le_aux :
    ∀ N, ∀ v : Value, sizeOf v ≤ N → ∀ e : Endian,
      accSize v ≤ (encBytes e v).length ∧
        (charFree v = true → accSize v = (encBytes e v).length) := by
  intro N
  induction N with
  | zero =>
    intro v hv
    exact absurd hv (by have := value_one_le_sizeOf v; omega)
  | succ N ih =>
    intro v hv e
    have ihList : ∀ vs : List Value, (∀ x ∈ vs, sizeOf x ≤ N) →
        accSizeList vs ≤ (encBytesList e vs).length ∧
          (charFreeList vs = true → accSizeList vs = (encBytesList e vs).length) := by
      intro vs hvs
      induction vs with
      | nil => simp [accSizeList, encBytesList, charFreeList]
      | cons x xs ihx =>
        have hx := ih x (hvs x (List.mem_cons_self x xs)) e
        have hxs := ihx (fun y hy => hvs y (List.mem_cons_of_mem x hy))
        simp only [accSizeList, encBytesList, charFreeList, List.length_append,
          Bool.and_eq_true]
        constructor
        · omega
        · intro h
          rw [hx.2 h.1, hxs.2 h.2]
    have ihPairs : ∀ ps : List (Value × Value),
        (∀ x ∈ ps, sizeOf x.1 ≤ N ∧ sizeOf x.2 ≤ N) →
        accSizePairs ps ≤ (encBytesPairs e ps).length ∧
          (charFreePairs ps = true → accSizePairs ps = (encBytesPairs e ps).length) := by
      intro ps hps
      induction ps with
      | nil => simp [accSizePairs, encBytesPairs, charFreePairs]
      | cons x xs ihx =>
        obtain ⟨a, b⟩ := x
        have ha := ih a (hps (a, b) (List.mem_cons_self _ xs)).1 e
        have hb := ih b (hps (a, b) (List.mem_cons_self _ xs)).2 e
        have hxs := ihx (fun y hy => hps y (List.mem_cons_of_mem _ hy))
        simp only [accSizePairs, encBytesPairs, charFreePairs, List.length_append,
          Bool.and_eq_true]
        constructor
        · omega
        · intro h
          rw [ha.2 h.1.1, hb.2 h.1.2, hxs.2 h.2]
    cases v with
    | unit => simp [accSize, encBytes, charFree]
    | bool b => simp [accSize, encBytes, charFree]
    | u8 n => simp [accSize, encBytes, charFree]
    | u16 n => simp [accSize, encBytes, charFree, writeN_length]
    | u32 n => simp [accSize, encBytes, charFree, writeN_length]
    | u64 n => simp [accSize, encBytes, charFree, writeN_length]
    | i8 i => simp [accSize, encBytes, charFree]
    | i16 i => simp [accSize, encBytes, charFree, writeN_length]
    | i32 i => simp [accSize, encBytes, charFree, writeN_length]
    | i64 i => simp [accSize, encBytes, charFree, writeN_length]
    | f32 bits => simp [accSize, encBytes, charFree, writeN_length]
    | f64 bits => simp [accSize, encBytes, charFree, writeN_length]
    | char c =>
      simp only [accSize, encBytes, charFree]
      have := encode_utf8_length_pos c
      constructor
      · omega
      · intro h
        cases h
    | str cs => simp [accSize, encBytes, charFree, writeN_length]
    | bytes bs => simp [accSize, encBytes, charFree, writeN_length]
    | none => simp [accSize, encBytes, charFree]
    | some v =>
      simp at hv
      have hv2 := ih v (by omega) e
      simp only [accSize, encBytes, charFree, List.length_cons]
      constructor
      · omega
      · intro h
        rw [hv2.2 h]
        omega
    | seq vs =>
      simp at hv
      have h2 := ihList vs (fun x hx => by have := List.sizeOf_lt_of_mem hx; omega)
      simp only [accSize, encBytes, charFree, List.length_append, writeN_length]
      constructor
      · omega
      · intro h
        rw [h2.2 h]
    | map ps =>
      simp at hv
      have h2 : accSizePairs ps ≤ (encBytesPairs e ps).length ∧
          (charFreePairs ps = true → accSizePairs ps = (encBytesPairs e ps).length) := by
        refine ihPairs ps (fun x hx => ?_)
        obtain ⟨a, b⟩ := x
        have := List.sizeOf_lt_of_mem hx
        simp at this
        constructor <;> simp <;> omega
      simp only [accSize, encBytes, charFree, List.length_append, writeN_length]
      constructor
      · omega
      · intro h
        rw [h2.2 h]
    | tuple vs =>
      simp at hv
      have h2 := ihList vs (fun x hx => by have := List.sizeOf_lt_of_mem hx; omega)
      simp only [accSize, encBytes, charFree]
      exact h2
    | variant idx p =>
      simp at hv
      have h2 := ih p (by omega) e
      simp only [accSize, encBytes, charFree, List.length_append, writeN_length]
      constructor
      · omega
      · intro h
        rw [h2.2 h]

theorem accSize_le (v : Value) (e : Endian) : accSize v ≤ (encBytes e v).length :=
  (accSize_le_aux (sizeOf v) v (le_refl _) e).1

theorem accSize_of_charFree (v : Value) (e : Endian) (h : charFree v = true) :
    accSize v = (encBytes e v).length :=
  (accSize_le_aux (sizeOf v) v (le_refl _) e).2 h

/-! ## Decoder steps on well-formed input -/

theorem de_read_bytes_ok (count : Nat) (st : DeState) (l1 : Limit)
    (h : st.limit.add count = .ok l1) :
    de_read_bytes count st = .ok () ⟨st.slice, l1⟩ := by
  simp [de_read_bytes, h]

theorem de_read_bytes_err (count : Nat) (st : DeState) (er : ErrorKind)
    (h : st.limit.add count = .error er) :
    de_read_bytes count st = .err er st := by
  simp [de_read_bytes, h]

theorem deserialize_u8_enc (b : Nat) (rest : List Nat) (l l1 : Limit)
    (h : l.add 1 = .ok l1) :
    deserialize_u8 ⟨b :: rest, l⟩ = .ok b ⟨rest, l1⟩ := by
  simp [deserialize_u8, de_read_bytes, h]

theorem deserialize_u8_limit_err (st : DeState) (er : ErrorKind)
    (h : st.limit.add 1 = .error er) :
    deserialize_u8 st = .err er st := by
  simp [deserialize_u8, de_read_bytes, h]

theorem deserialize_u8_empty (l l1 : Limit) (h : l.add 1 = .ok l1) :
    deserialize_u8 ⟨[], l⟩ = .err .SizeLimit ⟨[], l1⟩ := by
  simp [deserialize_u8, de_read_bytes, h]

theorem drop_append_of_length (w : Nat) (L rest : List Nat) (hL : L.length = w) :
    (L ++ rest).drop w = rest := by
  rw [← hL, List.drop_left]

theorem take_append_of_length (w : Nat) (L rest : List Nat) (hL : L.length = w) :
    (L ++ rest).take w = L := by
  rw [← hL, List.take_left]

theorem read_num_enc (e : Endian) (w n : Nat) (rest : List Nat) (l : Limit)
    (hn : n < 2 ^ (8 * w)) :
    read_num e w ⟨writeN e w n ++ rest, l⟩ = .ok n ⟨rest, l⟩ := by
  unfold read_num
  rw [if_neg (by simp [writeN_length]), readN_writeN e w n rest hn,
    drop_append_of_length w _ rest (writeN_length e w n)]

theorem read_num_short (e : Endian) (w : Nat) (st : DeState)
    (h : st.slice.length < w) :
    read_num e w st = .err .SizeLimit st := by
  unfold read_num
  rw [if_pos (by omega)]

theorem deserialize_num_enc (e : Endian) (w n : Nat) (rest : List Nat) (l l1 : Limit)
    (hn : n < 2 ^ (8 * w)) (h : l.add w = .ok l1) :
    deserialize_num e w ⟨writeN e w n ++ rest, l⟩ = .ok n ⟨rest, l1⟩ := by
  simp only [deserialize_num]
  rw [de_read_bytes_ok w _ l1 h]
  exact read_num_enc e w n rest l1 hn

theorem deserialize_num_limit_err (e : Endian) (w : Nat) (st : DeState) (er : ErrorKind)
    (h : st.limit.add w = .error er) :
    deserialize_num e w st = .err er st := by
  simp only [deserialize_num]
  rw [de_read_bytes_err w st er h]

theorem deserialize_num_short (e : Endian) (w : Nat) (st : DeState) (l1 : Limit)
    (hl : st.limit.add w = .ok l1) (h : st.slice.length < w) :
    deserialize_num e w st = .err .SizeLimit ⟨st.slice, l1⟩ := by
  simp only [deserialize_num]
  rw [de_read_bytes_ok w st l1 hl]
  exact read_num_short e w _ (by simpa using h)

theorem forward_read_str_enc (cs : List Nat) (hcs : cs.all isScalar = true)
    (rest : List Nat) (l : Limit) :
    forward_read_str (utf8Encode cs).length ⟨utf8Encode cs ++ rest, l⟩ = .ok cs ⟨rest, l⟩ := by
  unfold forward_read_str
  rw [if_neg (by simp), List.take_left, utf8Decode_utf8Encode cs hcs, List.drop_left]

theorem forward_read_bytes_enc (bs rest : List Nat) (l : Limit) :
    forward_read_bytes bs.length ⟨bs ++ rest, l⟩ = .ok bs ⟨rest, l⟩ := by
  unfold forward_read_bytes
  rw [if_neg (by simp), List.take_left, List.drop_left]

theorem read_exact_enc (bs rest : List Nat) (l : Limit) :
    read_exact bs.length ⟨bs ++ rest, l⟩ = .ok bs ⟨rest, l⟩ := by
  unfold read_exact
  rw [if_neg (by simp), List.take_left, List.drop_left]

/-- `deserialize_char` inverts `encode_utf8` for every Unicode scalar
value, without touching the limit. -/
theorem deserialize_char_enc (c : Nat) (hc : isScalar c = true) (rest : List Nat)
    (l : Limit) :
    deserialize_char ⟨encode_utf8 c ++ rest, l⟩ = .ok c ⟨rest, l⟩ := by
  obtain ⟨b0, tail, henc, hwidth, hone⟩ := encode_utf8_head_width c hc
  have hdecode := utf8Decode_encode_utf8 c hc
  rw [henc] at hdecode
  have hre1 : read_exact 1 ⟨b0 :: (tail ++ rest), l⟩ = .ok [b0] ⟨tail ++ rest, l⟩ := by
    simpa using read_exact_enc [b0] (tail ++ rest) l
  simp only [deserialize_char, henc, List.cons_append]
  simp only [hre1]
  cases tail with
  | nil =>
    have hb0 : b0 = c := hone rfl
    subst hb0
    simp only [List.length_nil] at hwidth
    simp only [List.nil_append]
    rw [if_pos (by omega)]
  | cons t ts =>
    simp only [List.cons_append]
    rw [if_neg (by simp at hwidth ⊢; omega), if_neg (by simp at hwidth ⊢; omega)]
    have hre2 : read_exact (utf8_char_width b0 - 1) ⟨t :: (ts ++ rest), l⟩ =
        .ok (t :: ts) ⟨rest, l⟩ := by
      rw [hwidth]
      simpa using read_exact_enc (t :: ts) rest l
    simp only [hre2, hdecode]

/-! ## Decoding the encoder's output: main inversion -/

theorem deser_num_shape_case (e : Endian) (w n : Nat) (hn : n < 2 ^ (8 * w))
    (mk : Nat → Value) (s : Shape)
    (hunf : ∀ st : DeState, deserValue e s st =
      (match deserialize_num e w st with
       | .ok m st1 => .ok (mk m) st1
       | .err er st1 => .err er st1)) (rest : List Nat) (l : Limit) :
    (∀ l1, l.add w = .ok l1 →
      deserValue e s ⟨writeN e w n ++ rest, l⟩ = .ok (mk n) ⟨rest, l1⟩) ∧
    (∀ er, l.add w = .error er →
      ∃ st, deserValue e s ⟨writeN e w n ++ rest, l⟩ = .err .SizeLimit st) := by
  constructor
  · intro l1 hl1
    simp only [hunf, deserialize_num_enc e w n rest l l1 hn hl1]
  · intro er her
    have hk := Limit.add_err_kind _ _ _ her
    subst hk
    refine ⟨⟨writeN e w n ++ rest, l⟩, ?_⟩
    simp only [hunf, deserialize_num_limit_err e w ⟨writeN e w n ++ rest, l⟩ _ her]

theorem deser_u8_shape_case (e : Endian) (b : Nat) (mk : Nat → Value) (s : Shape)
    (hunf : ∀ st : DeState, deserValue e s st =
      (match deserialize_u8 st with
       | .ok m st1 => .ok (mk m) st1
       | .err er st1 => .err er st1)) (rest : List Nat) (l : Limit) :
    (∀ l1, l.add 1 = .ok l1 →
      deserValue e s ⟨b :: rest, l⟩ = .ok (mk b) ⟨rest, l1⟩) ∧
    (∀ er, l.add 1 = .error er →
      ∃ st, deserValue e s ⟨b :: rest, l⟩ = .err .SizeLimit st) := by
  constructor
  · intro l1 hl1
    simp only [hunf, deserialize_u8_enc b rest l l1 hl1]
  · intro er her
    have hk := Limit.add_err_kind _ _ _ her
    subst hk
    refine ⟨⟨b :: rest, l⟩, ?_⟩
    simp only [hunf, deserialize_u8_limit_err ⟨b :: rest, l⟩ _ her]

theorem deserValue_enc_aux :
    ∀ N, ∀ v : Value, sizeOf v ≤ N → ∀ s : Shape, hasShape s v = true →
      ∀ (e : Endian) (rest : List Nat) (l : Limit),
        (∀ l1, l.add (accSize v) = .ok l1 →
          deserValue e s ⟨encBytes e v ++ rest, l⟩ = .ok v ⟨rest, l1⟩) ∧
        (∀ er, l.add (accSize v) = .error er →
          ∃ st, deserValue e s ⟨encBytes e v ++ rest, l⟩ = .err .SizeLimit st) := by
  intro N
  induction N with
  | zero =>
    intro v hv
    exact absurd hv (by have := value_one_le_sizeOf v; omega)
  | succ N ih =>
    intro v hv s h e rest l
    cases v with
    | unit =>
      cases s <;> try exact Bool.noConfusion h
      refine ⟨fun l1 hl1 => ?_, fun er her => ?_⟩
      · rw [show accSize .unit = 0 from rfl, Limit.add_zero] at hl1
        injection hl1 with h1
        subst h1
        simp [deserValue, encBytes]
      · rw [show accSize .unit = 0 from rfl, Limit.add_zero] at her
        cases her
    | bool b =>
      cases s <;> try exact Bool.noConfusion h
      refine ⟨fun l1 hl1 => ?_, fun er her => ?_⟩
      · have hu8 := deserialize_u8_enc (if b then 1 else 0) rest l l1 hl1
        simp only [deserValue, deserialize_bool, encBytes, List.singleton_append, hu8]
        cases b <;> simp
      · have hk := Limit.add_err_kind _ _ _ her
        subst hk
        have hu8 := deserialize_u8_limit_err ⟨(if b then 1 else 0) :: rest, l⟩ _ her
        refine ⟨⟨(if b then 1 else 0) :: rest, l⟩, ?_⟩
        simp only [deserValue, deserialize_bool, encBytes, List.singleton_append, hu8]
    | u8 n =>
      cases s <;> try exact Bool.noConfusion h
      exact deser_u8_shape_case e n Value.u8 .u8 (fun st => by simp [deserValue]) rest l
    | u16 n =>
      cases s <;> try exact Bool.noConfusion h
      have hn : n < 2 ^ 16 := of_decide_eq_true h
      exact deser_num_shape_case e 2 n (by norm_num at hn ⊢; omega) Value.u16 .u16
        (fun st => by simp [deserValue]) rest l
    | u32 n =>
      cases s <;> try exact Bool.noConfusion h
      have hn : n < 2 ^ 32 := of_decide_eq_true h
      exact deser_num_shape_case e 4 n (by norm_num at hn ⊢; omega) Value.u32 .u32
        (fun st => by simp [deserValue]) rest l
    | u64 n =>
      cases s <;> try exact Bool.noConfusion h
      have hn : n < 2 ^ 64 := of_decide_eq_true h
      exact deser_num_shape_case e 8 n (by norm_num at hn ⊢; omega) Value.u64 .u64
        (fun st => by simp [deserValue]) rest l
    | i8 i =>
      cases s <;> try exact Bool.noConfusion h
      have h2 : (decide (-(2 ^ 7) ≤ i) && decide (i < 2 ^ 7)) = true := h
      simp only [Bool.and_eq_true, decide_eq_true_eq] at h2
      have hval : intFromWire 1 (intToWire 1 i) = i :=
        intFromWire_intToWire 1 i (by norm_num)
          (by have := h2.1; norm_num at this ⊢; omega)
          (by have := h2.2; norm_num at this ⊢; omega)
      have hc := deser_u8_shape_case e (intToWire 1 i)
        (fun m => Value.i8 (intFromWire 1 m)) .i8 (fun st => by simp [deserValue]) rest l
      rw [hval] at hc
      exact hc
    | i16 i =>
      cases s <;> try exact Bool.noConfusion h
      have h2 : (decide (-(2 ^ 15) ≤ i) && decide (i < 2 ^ 15)) = true := h
      simp only [Bool.and_eq_true, decide_eq_true_eq] at h2
      have hval : intFromWire 2 (intToWire 2 i) = i :=
        intFromWire_intToWire 2 i (by norm_num)
          (by have := h2.1; norm_num at this ⊢; omega)
          (by have := h2.2; norm_num at this ⊢; omega)
      have hc := deser_num_shape_case e 2 (intToWire 2 i) (intToWire_lt 2 i)
        (fun m => Value.i16 (intFromWire 2 m)) .i16 (fun st => by simp [deserValue]) rest l
      rw [hval] at hc
      exact hc
    | i32 i =>
      cases s <;> try exact Bool.noConfusion h
      have h2 : (decide (-(2 ^ 31) ≤ i) && decide (i < 2 ^ 31)) = true := h
      simp only [Bool.and_eq_true, decide_eq_true_eq] at h2
      have hval : intFromWire 4 (intToWire 4 i) = i :=
        intFromWire_intToWire 4 i (by norm_num)
          (by have := h2.1; norm_num at this ⊢; omega)
          (by have := h2.2; norm_num at this ⊢; omega)
      have hc := deser_num_shape_case e 4 (intToWire 4 i) (intToWire_lt 4 i)
        (fun m => Value.i32 (intFromWire 4 m)) .i32 (fun st => by simp [deserValue]) rest l
      rw [hval] at hc
      exact hc
    | i64 i =>
      cases s <;> try exact Bool.noConfusion h
      have h2 : (decide (-(2 ^ 63) ≤ i) && decide (i < 2 ^ 63)) = true := h
      simp only [Bool.and_eq_true, decide_eq_true_eq] at h2
      have hval : intFromWire 8 (intToWire 8 i) = i :=
        intFromWire_intToWire 8 i (by norm_num)
          (by have := h2.1; norm_num at this ⊢; omega)
          (by have := h2.2; norm_num at this ⊢; omega)
      have hc := deser_num_shape_case e 8 (intToWire 8 i) (intToWire_lt 8 i)
        (fun m => Value.i64 (intFromWire 8 m)) .i64 (fun st => by simp [deserValue]) rest l
      rw [hval] at hc
      exact hc
    | f32 bits =>
      cases s <;> try exact Bool.noConfusion h
      have hn : bits < 2 ^ 32 := of_decide_eq_true h
      exact deser_num_shape_case e 4 bits (by norm_num at hn ⊢; omega) Value.f32 .f32
        (fun st => by simp [deserValue]) rest l
    | f64 bits =>
      cases s <;> try exact Bool.noConfusion h
      have hn : bits < 2 ^ 64 := of_decide_eq_true h
      exact deser_num_shape_case e 8 bits (by norm_num at hn ⊢; omega) Value.f64 .f64
        (fun st => by simp [deserValue]) rest l
    | char c =>
      cases s <;> try exact Bool.noConfusion h
      have hc : isScalar c = true := h
      refine ⟨fun l1 hl1 => ?_, fun er her => ?_⟩
      · rw [show accSize (.char c) = 0 from rfl, Limit.add_zero] at hl1
        injection hl1 with h1
        subst h1
        simp only [deserValue, encBytes, deserialize_char_enc c hc rest l]
      · rw [show accSize (.char c) = 0 from rfl, Limit.add_zero] at her
        cases her
    | str cs =>
      cases s <;> try exact Bool.noConfusion h
      have h2 : (cs.all isScalar && decide ((utf8Encode cs).length < 2 ^ 64)) = true := h
      simp only [Bool.and_eq_true, decide_eq_true_eq] at h2
      obtain ⟨hall, hlen⟩ := h2
      refine ⟨fun l1 hl1 => ?_, fun er her => ?_⟩
      · obtain ⟨la, hla, hlb⟩ :=
          Limit.add_split_ok l 8 (utf8Encode cs).length l1 hl1
        simp only [deserValue, deserialize_str, encBytes, List.append_assoc,
          deserialize_num_enc e 8 (utf8Encode cs).length (utf8Encode cs ++ rest) l la
            (by norm_num at hlen ⊢; omega) hla,
          de_read_bytes_ok (utf8Encode cs).length ⟨utf8Encode cs ++ rest, la⟩ l1 hlb,
          forward_read_str_enc cs hall rest l1]
      · rcases Limit.add_split_err l 8 (utf8Encode cs).length er her with h1 | ⟨la, hla, h2⟩
        · refine ⟨⟨writeN e 8 (utf8Encode cs).length ++ (utf8Encode cs ++ rest), l⟩, ?_⟩
          simp only [deserValue, deserialize_str, encBytes, List.append_assoc,
            deserialize_num_limit_err e 8
              ⟨writeN e 8 (utf8Encode cs).length ++ (utf8Encode cs ++ rest), l⟩ _ h1]
        · refine ⟨⟨utf8Encode cs ++ rest, la⟩, ?_⟩
          simp only [deserValue, deserialize_str, encBytes, List.append_assoc,
            deserialize_num_enc e 8 (utf8Encode cs).length (utf8Encode cs ++ rest) l la
              (by norm_num at hlen ⊢; omega) hla,
            de_read_bytes_err (utf8Encode cs).length ⟨utf8Encode cs ++ rest, la⟩ _ h2]
    | bytes bs =>
      cases s <;> try exact Bool.noConfusion h
      have h2 : (bs.all (fun x => decide (x < 2 ^ 8)) && decide (bs.length < 2 ^ 64)) = true := h
      simp only [Bool.and_eq_true, decide_eq_true_eq] at h2
      obtain ⟨_, hlen⟩ := h2
      refine ⟨fun l1 hl1 => ?_, fun er her => ?_⟩
      · obtain ⟨la, hla, hlb⟩ := Limit.add_split_ok l 8 bs.length l1 hl1
        simp only [deserValue, deserialize_bytes, encBytes, List.append_assoc,
          deserialize_num_enc e 8 bs.length (bs ++ rest) l la
            (by norm_num at hlen ⊢; omega) hla,
          de_read_bytes_ok bs.length ⟨bs ++ rest, la⟩ l1 hlb,
          forward_read_bytes_enc bs rest l1]
      · rcases Limit.add_split_err l 8 bs.length er her with h1 | ⟨la, hla, h2⟩
        · refine ⟨⟨writeN e 8 bs.length ++ (bs ++ rest), l⟩, ?_⟩
          simp only [deserValue, deserialize_bytes, encBytes, List.append_assoc,
            deserialize_num_limit_err e 8 ⟨writeN e 8 bs.length ++ (bs ++ rest), l⟩ _ h1]
        · refine ⟨⟨bs ++ rest, la⟩, ?_⟩
          simp only [deserValue, deserialize_bytes, encBytes, List.append_assoc,
            deserialize_num_enc e 8 bs.length (bs ++ rest) l la
              (by norm_num at hlen ⊢; omega) hla,
            de_read_bytes_err bs.length ⟨bs ++ rest, la⟩ _ h2]
    | none =>
      cases s <;> try exact Bool.noConfusion h
      refine ⟨fun l1 hl1 => ?_, fun er her => ?_⟩
      · have hu8 := deserialize_u8_enc 0 rest l l1 hl1
        simp only [deserValue, encBytes, List.singleton_append, hu8]
        simp
      · have hk := Limit.add_err_kind _ _ _ her
        subst hk
        have hu8 := deserialize_u8_limit_err ⟨0 :: rest, l⟩ _ her
        refine ⟨⟨0 :: rest, l⟩, ?_⟩
        simp only [deserValue, encBytes, List.singleton_append, hu8]
    | some v =>
      cases s <;> try exact Bool.noConfusion h
      rename_i s'
      have hpayload : hasShape s' v = true := h
      have hszv : sizeOf v ≤ N := by simp at hv; omega
      refine ⟨fun l1 hl1 => ?_, fun er her => ?_⟩
      · obtain ⟨la, hla, hlb⟩ := Limit.add_split_ok l 1 (accSize v) l1 hl1
        have hpay := (ih v hszv s' hpayload e rest la).1 l1 hlb
        have hu8 := deserialize_u8_enc 1 (encBytes e v ++ rest) l la hla
        simp only [deserValue, encBytes, List.cons_append, hu8]
        simp [hpay]
      · rcases Limit.add_split_err l 1 (accSize v) er her with h1 | ⟨la, hla, h2⟩
        · have hu8 := deserialize_u8_limit_err ⟨1 :: (encBytes e v ++ rest), l⟩ _ h1
          refine ⟨⟨1 :: (encBytes e v ++ rest), l⟩, ?_⟩
          simp only [deserValue, encBytes, List.cons_append, hu8]
        · obtain ⟨st', hst'⟩ := (ih v hszv s' hpayload e rest la).2 _ h2
          have hu8 := deserialize_u8_enc 1 (encBytes e v ++ rest) l la hla
          refine ⟨st', ?_⟩
          simp only [deserValue, encBytes, List.cons_append, hu8]
          simp [hst']
    | seq vs =>
      cases s <;> try exact Bool.noConfusion h
      rename_i s'
      have h2 : (hasShapeList s' vs && decide (vs.length < 2 ^ 64)) = true := h
      simp only [Bool.and_eq_true, decide_eq_true_eq] at h2
      obtain ⟨hsh, hlen⟩ := h2
      have hsz : ∀ x ∈ vs, sizeOf x ≤ N := by
        intro x hx
        have h3 := List.sizeOf_lt_of_mem hx
        simp at hv
        omega
      have ihSeq : ∀ (vs1 : List Value), hasShapeList s' vs1 = true →
          (∀ x ∈ vs1, sizeOf x ≤ N) → ∀ (rest1 : List Nat) (l1 : Limit),
          (∀ l2, l1.add (accSizeList vs1) = .ok l2 →
            deserSeq e s' vs1.length ⟨encBytesList e vs1 ++ rest1, l1⟩ = .ok vs1 ⟨rest1, l2⟩) ∧
          (∀ er, l1.add (accSizeList vs1) = .error er →
            ∃ st, deserSeq e s' vs1.length ⟨encBytesList e vs1 ++ rest1, l1⟩ =
              .err .SizeLimit st) := by
        intro vs1
        induction vs1 with
        | nil =>
          intro _ _ rest1 l1
          refine ⟨fun l2 hl2 => ?_, fun er her => ?_⟩
          · rw [show accSizeList [] = 0 from rfl, Limit.add_zero] at hl2
            injection hl2 with hh
            subst hh
            simp [deserSeq, encBytesList]
          · rw [show accSizeList [] = 0 from rfl, Limit.add_zero] at her
            cases her
        | cons x xs ihx =>
          intro hshx hszx rest1 l1
          have hshx2 : (hasShape s' x && hasShapeList s' xs) = true := hshx
          simp only [Bool.and_eq_true] at hshx2
          refine ⟨fun l2 hl2 => ?_, fun er her => ?_⟩
          · rw [show accSizeList (x :: xs) = accSize x + accSizeList xs from rfl] at hl2
            obtain ⟨la, hla, hlb⟩ := Limit.add_split_ok l1 _ _ l2 hl2
            have hx := (ih x (hszx x (List.mem_cons_self x xs)) s' hshx2.1 e
              (encBytesList e xs ++ rest1) l1).1 la hla
            have hxs := (ihx hshx2.2 (fun y hy => hszx y (List.mem_cons_of_mem x hy))
              rest1 la).1 l2 hlb
            simp only [encBytesList, List.append_assoc, List.length_cons, deserSeq, hx, hxs]
          · rw [show accSizeList (x :: xs) = accSize x + accSizeList xs from rfl] at her
            rcases Limit.add_split_err l1 _ _ er her with h1 | ⟨la, hla, h3⟩
            · obtain ⟨st', hst'⟩ := (ih x (hszx x (List.mem_cons_self x xs)) s' hshx2.1 e
                (encBytesList e xs ++ rest1) l1).2 _ h1
              refine ⟨st', ?_⟩
              simp only [encBytesList, List.append_assoc, List.length_cons, deserSeq, hst']
            · have hx := (ih x (hszx x (List.mem_cons_self x xs)) s' hshx2.1 e
                (encBytesList e xs ++ rest1) l1).1 la hla
              obtain ⟨st', hst'⟩ := (ihx hshx2.2
                (fun y hy => hszx y (List.mem_cons_of_mem x hy)) rest1 la).2 _ h3
              refine ⟨st', ?_⟩
              simp only [encBytesList, List.append_assoc, List.length_cons, deserSeq, hx, hst']
      refine ⟨fun l1 hl1 => ?_, fun er her => ?_⟩
      · rw [show accSize (.seq vs) = 8 + accSizeList vs from rfl] at hl1
        obtain ⟨la, hla, hlb⟩ := Limit.add_split_ok l 8 _ l1 hl1
        have hnum := deserialize_num_enc e 8 vs.length (encBytesList e vs ++ rest) l la
          (by norm_num at hlen ⊢; omega) hla
        have hrest := (ihSeq vs hsh hsz rest la).1 l1 hlb
        simp only [deserValue, encBytes, List.append_assoc, hnum, hrest]
      · rw [show accSize (.seq vs) = 8 + accSizeList vs from rfl] at her
        rcases Limit.add_split_err l 8 _ er her with h1 | ⟨la, hla, h3⟩
        · refine ⟨⟨writeN e 8 vs.length ++ (encBytesList e vs ++ rest), l⟩, ?_⟩
          simp only [deserValue, encBytes, List.append_assoc,
            deserialize_num_limit_err e 8
              ⟨writeN e 8 vs.length ++ (encBytesList e vs ++ rest), l⟩ _ h1]
        · have hnum := deserialize_num_enc e 8 vs.length (encBytesList e vs ++ rest) l la
            (by norm_num at hlen ⊢; omega) hla
          obtain ⟨st', hst'⟩ := (ihSeq vs hsh hsz rest la).2 _ h3
          refine ⟨st', ?_⟩
          simp only [deserValue, encBytes, List.append_assoc, hnum, hst']
    | map ps =>
      cases s <;> try exact Bool.noConfusion h
      rename_i sk sv
      have h2 : (hasShapePairs sk sv ps && decide (ps.length < 2 ^ 64)) = true := h
      simp only [Bool.and_eq_true, decide_eq_true_eq] at h2
      obtain ⟨hsh, hlen⟩ := h2
      have hsz : ∀ x ∈ ps, sizeOf x.1 ≤ N ∧ sizeOf x.2 ≤ N := by
        intro x hx
        obtain ⟨a, b⟩ := x
        have h3 := List.sizeOf_lt_of_mem hx
        simp at h3 hv
        constructor <;> simp <;> omega
      have ihMap : ∀ (ps1 : List (Value × Value)), hasShapePairs sk sv ps1 = true →
          (∀ x ∈ ps1, sizeOf x.1 ≤ N ∧ sizeOf x.2 ≤ N) → ∀ (rest1 : List Nat) (l1 : Limit),
          (∀ l2, l1.add (accSizePairs ps1) = .ok l2 →
            deserMap e sk sv ps1.length ⟨encBytesPairs e ps1 ++ rest1, l1⟩ =
              .ok ps1 ⟨rest1, l2⟩) ∧
          (∀ er, l1.add (accSizePairs ps1) = .error er →
            ∃ st, deserMap e sk sv ps1.length ⟨encBytesPairs e ps1 ++ rest1, l1⟩ =
              .err .SizeLimit st) := by
        intro ps1
        induction ps1 with
        | nil =>
          intro _ _ rest1 l1
          refine ⟨fun l2 hl2 => ?_, fun er her => ?_⟩
          · rw [show accSizePairs [] = 0 from rfl, Limit.add_zero] at hl2
            injection hl2 with hh
            subst hh
            simp [deserMap, encBytesPairs]
          · rw [show accSizePairs [] = 0 from rfl, Limit.add_zero] at her
            cases her
        | cons x xs ihx =>
          obtain ⟨a, b⟩ := x
          intro hshx hszx rest1 l1
          have hshx2 : ((hasShape sk a && hasShape sv b) && hasShapePairs sk sv xs) = true := hshx
          simp only [Bool.and_eq_true] at hshx2
          have hsza := (hszx (a, b) (List.mem_cons_self _ xs)).1
          have hszb := (hszx (a, b) (List.mem_cons_self _ xs)).2
          simp only at hsza hszb
          refine ⟨fun l2 hl2 => ?_, fun er her => ?_⟩
          · rw [show accSizePairs ((a, b) :: xs) =
              accSize a + accSize b + accSizePairs xs from rfl] at hl2
            obtain ⟨lab, hlab, hlc⟩ := Limit.add_split_ok l1 _ _ l2 hl2
            obtain ⟨la, hla, hlb⟩ := Limit.add_split_ok l1 _ _ lab hlab
            have ha := (ih a hsza sk hshx2.1.1 e
              (encBytes e b ++ (encBytesPairs e xs ++ rest1)) l1).1 la hla
            have hb := (ih b hszb sv hshx2.1.2 e
              (encBytesPairs e xs ++ rest1) la).1 lab hlb
            have hxs := (ihx hshx2.2 (fun y hy => hszx y (List.mem_cons_of_mem _ hy))
              rest1 lab).1 l2 hlc
            simp only [encBytesPairs, List.append_assoc, List.length_cons, deserMap,
              ha, hb, hxs]
          · rw [show accSizePairs ((a, b) :: xs) =
              accSize a + accSize b + accSizePairs xs from rfl] at her
            rcases Limit.add_split_err l1 _ _ er her with h1 | ⟨lab, hlab, h3⟩
            · rcases Limit.add_split_err l1 _ _ _ h1 with h4 | ⟨la, hla, h5⟩
              · obtain ⟨st', hst'⟩ := (ih a hsza sk hshx2.1.1 e
                  (encBytes e b ++ (encBytesPairs e xs ++ rest1)) l1).2 _ h4
                refine ⟨st', ?_⟩
                simp only [encBytesPairs, List.append_assoc, List.length_cons, deserMap, hst']
              · have ha := (ih a hsza sk hshx2.1.1 e
                  (encBytes e b ++ (encBytesPairs e xs ++ rest1)) l1).1 la hla
                obtain ⟨st', hst'⟩ := (ih b hszb sv hshx2.1.2 e
                  (encBytesPairs e xs ++ rest1) la).2 _ h5
                refine ⟨st', ?_⟩
                simp only [encBytesPairs, List.append_assoc, List.length_cons, deserMap,
                  ha, hst']
            · obtain ⟨la, hla, hlb⟩ := Limit.add_split_ok l1 _ _ lab hlab
              have ha := (ih a hsza sk hshx2.1.1 e
                (encBytes e b ++ (encBytesPairs e xs ++ rest1)) l1).1 la hla
              have hb := (ih b hszb sv hshx2.1.2 e
                (encBytesPairs e xs ++ rest1) la).1 lab hlb
              obtain ⟨st', hst'⟩ := (ihx hshx2.2
                (fun y hy => hszx y (List.mem_cons_of_mem _ hy)) rest1 lab).2 _ h3
              refine ⟨st', ?_⟩
              simp only [encBytesPairs, List.append_assoc, List.length_cons, deserMap,
                ha, hb, hst']
      refine ⟨fun l1 hl1 => ?_, fun er her => ?_⟩
      · rw [show accSize (.map ps) = 8 + accSizePairs ps from rfl] at hl1
        obtain ⟨la, hla, hlb⟩ := Limit.add_split_ok l 8 _ l1 hl1
        have hnum := deserialize_num_enc e 8 ps.length (encBytesPairs e ps ++ rest) l la
          (by norm_num at hlen ⊢; omega) hla
        have hrest := (ihMap ps hsh hsz rest la).1 l1 hlb
        simp only [deserValue, encBytes, List.append_assoc, hnum, hrest]
      · rw [show accSize (.map ps) = 8 + accSizePairs ps from rfl] at her
        rcases Limit.add_split_err l 8 _ er her with h1 | ⟨la, hla, h3⟩
        · refine ⟨⟨writeN e 8 ps.length ++ (encBytesPairs e ps ++ rest), l⟩, ?_⟩
          simp only [deserValue, encBytes, List.append_assoc,
            deserialize_num_limit_err e 8
              ⟨writeN e 8 ps.length ++ (encBytesPairs e ps ++ rest), l⟩ _ h1]
        · have hnum := deserialize_num_enc e 8 ps.length (encBytesPairs e ps ++ rest) l la
            (by norm_num at hlen ⊢; omega) hla
          obtain ⟨st', hst'⟩ := (ihMap ps hsh hsz rest la).2 _ h3
          refine ⟨st', ?_⟩
          simp only [deserValue, encBytes, List.append_assoc, hnum, hst']
    | tuple vs =>
      cases s <;> try exact Bool.noConfusion h
      rename_i ss
      have hsz : ∀ x ∈ vs, sizeOf x ≤ N := by
        intro x hx
        have h3 := List.sizeOf_lt_of_mem hx
        simp at hv
        omega
      have ihTup : ∀ (ss1 : List Shape) (vs1 : List Value), hasShapeTuple ss1 vs1 = true →
          (∀ x ∈ vs1, sizeOf x ≤ N) → ∀ (rest1 : List Nat) (l1 : Limit),
          (∀ l2, l1.add (accSizeList vs1) = .ok l2 →
            deserTuple e ss1 ⟨encBytesList e vs1 ++ rest1, l1⟩ = .ok vs1 ⟨rest1, l2⟩) ∧
          (∀ er, l1.add (accSizeList vs1) = .error er →
            ∃ st, deserTuple e ss1 ⟨encBytesList e vs1 ++ rest1, l1⟩ =
              .err .SizeLimit st) := by
        intro ss1
        induction ss1 with
        | nil =>
          intro vs1 hsh1 _ rest1 l1
          cases vs1 with
          | nil =>
            refine ⟨fun l2 hl2 => ?_, fun er her => ?_⟩
            · rw [show accSizeList [] = 0 from rfl, Limit.add_zero] at hl2
              injection hl2 with hh
              subst hh
              simp [deserTuple, encBytesList]
            · rw [show accSizeList [] = 0 from rfl, Limit.add_zero] at her
              cases her
          | cons y ys => exact Bool.noConfusion hsh1
        | cons s0 ss0 ihs =>
          intro vs1 hsh1 hsz1 rest1 l1
          cases vs1 with
          | nil => exact Bool.noConfusion hsh1
          | cons y ys =>
            have hsh2 : (hasShape s0 y && hasShapeTuple ss0 ys) = true := hsh1
            simp only [Bool.and_eq_true] at hsh2
            refine ⟨fun l2 hl2 => ?_, fun er her => ?_⟩
            · rw [show accSizeList (y :: ys) = accSize y + accSizeList ys from rfl] at hl2
              obtain ⟨la, hla, hlb⟩ := Limit.add_split_ok l1 _ _ l2 hl2
              have hy := (ih y (hsz1 y (List.mem_cons_self y ys)) s0 hsh2.1 e
                (encBytesList e ys ++ rest1) l1).1 la hla
              have hys := (ihs ys hsh2.2 (fun z hz => hsz1 z (List.mem_cons_of_mem y hz))
                rest1 la).1 l2 hlb
              simp only [encBytesList, List.append_assoc, deserTuple, hy, hys]
            · rw [show accSizeList (y :: ys) = accSize y + accSizeList ys from rfl] at her
              rcases Limit.add_split_err l1 _ _ er her with h1 | ⟨la, hla, h3⟩
              · obtain ⟨st', hst'⟩ := (ih y (hsz1 y (List.mem_cons_self y ys)) s0 hsh2.1 e
                  (encBytesList e ys ++ rest1) l1).2 _ h1
                refine ⟨st', ?_⟩
                simp only [encBytesList, List.append_assoc, deserTuple, hst']
              · have hy := (ih y (hsz1 y (List.mem_cons_self y ys)) s0 hsh2.1 e
                  (encBytesList e ys ++ rest1) l1).1 la hla
                obtain ⟨st', hst'⟩ := (ihs ys hsh2.2
                  (fun z hz => hsz1 z (List.mem_cons_of_mem y hz)) rest1 la).2 _ h3
                refine ⟨st', ?_⟩
                simp only [encBytesList, List.append_assoc, deserTuple, hy, hst']
      refine ⟨fun l1 hl1 => ?_, fun er her => ?_⟩
      · have hrest := (ihTup ss vs h hsz rest l).1 l1 hl1
        simp only [deserValue, encBytes, hrest]
      · obtain ⟨st', hst'⟩ := (ihTup ss vs h hsz rest l).2 _ her
        refine ⟨st', ?_⟩
        simp only [deserValue, encBytes, hst']
    | variant idx p =>
      cases s <;> try exact Bool.noConfusion h
      rename_i variants
      have h2 : (decide (idx < 2 ^ 32) &&
          (match variants.get? idx with
           | Option.some s1 => hasShape s1 p
           | Option.none => false)) = true := h
      simp only [Bool.and_eq_true, decide_eq_true_eq] at h2
      obtain ⟨hidx, hmatch⟩ := h2
      cases hg : variants.get? idx with
      | none =>
        have hg2 := hg
        rw [List.get?_eq_getElem?] at hg2
        simp [hg, hg2] at hmatch
      | some s' =>
        have hg2 := hg
        rw [List.get?_eq_getElem?] at hg2
        have hs' : hasShape s' p = true := by
          first
          | simpa [hg] using hmatch
          | simpa [hg2] using hmatch
        have hszp : sizeOf p ≤ N := by simp at hv; omega
        refine ⟨fun l1 hl1 => ?_, fun er her => ?_⟩
        · rw [show accSize (.variant idx p) = 4 + accSize p from rfl] at hl1
          obtain ⟨la, hla, hlb⟩ := Limit.add_split_ok l 4 _ l1 hl1
          have hnum := deserialize_num_enc e 4 idx (encBytes e p ++ rest) l la
            (by norm_num at hidx ⊢; omega) hla
          have hpay := (ih p hszp s' hs' e rest la).1 l1 hlb
          simp only [deserValue, encBytes, List.append_assoc, hnum]
          split
          · rename_i s'' heq
            rw [hg] at heq
            injection heq with heq2
            subst heq2
            simp only [hpay]
          · rename_i heq
            rw [hg] at heq
            cases heq
        · rw [show accSize (.variant idx p) = 4 + accSize p from rfl] at her
          rcases Limit.add_split_err l 4 _ er her with h1 | ⟨la, hla, h3⟩
          · refine ⟨⟨writeN e 4 idx ++ (encBytes e p ++ rest), l⟩, ?_⟩
            simp only [deserValue, encBytes, List.append_assoc,
              deserialize_num_limit_err e 4
                ⟨writeN e 4 idx ++ (encBytes e p ++ rest), l⟩ _ h1]
          · have hnum := deserialize_num_enc e 4 idx (encBytes e p ++ rest) l la
              (by norm_num at hidx ⊢; omega) hla
            obtain ⟨st', hst'⟩ := (ih p hszp s' hs' e rest la).2 _ h3
            refine ⟨st', ?_⟩
            simp only [deserValue, encBytes, List.append_assoc, hnum]
            split
            · rename_i s'' heq
              rw [hg] at heq
              injection heq with heq2
              subst heq2
              simp only [hst']
            · rename_i heq
              rw [hg] at heq
              cases heq

/-- Decoding inverts encoding and consumes exactly the encoded bytes,
provided the limit can afford the decoder-accounted size. -/
theorem deserValue_enc (e : Endian) (s : Shape) (v : Value) (h : hasShape s v = true)
    (rest : List Nat) (l l1 : Limit) (hl : l.add (accSize v) = .ok l1) :
    deserValue e s ⟨encBytes e v ++ rest, l⟩ = .ok v ⟨rest, l1⟩ :=
  (deserValue_enc_aux (sizeOf v) v (le_refl _) s h e rest l).1 l1 hl

/-- When the limit cannot afford the decoder-accounted size, decoding the
encoder's output fails with `SizeLimit`. -/
theorem deserValue_enc_limit_err (e : Endian) (s : Shape) (v : Value)
    (h : hasShape s v = true) (rest : List Nat) (l : Limit) (er : ErrorKind)
    (hl : l.add (accSize v) = .error er) :
    ∃ st, deserValue e s ⟨encBytes e v ++ rest, l⟩ = .err .SizeLimit st :=
  (deserValue_enc_aux (sizeOf v) v (le_refl _) s h e rest l).2 er hl

/-! ## Truncation -/

theorem take_append_small (A B : List Nat) (k : Nat) (hk : k ≤ A.length) :
    (A ++ B).take k = A.take k := by
  rw [List.take_append_eq_append_take]
  simp [Nat.sub_eq_zero_of_le hk]

theorem take_append_big (A B : List Nat) (k : Nat) (hk : A.length ≤ k) :
    (A ++ B).take k = A ++ B.take (k - A.length) := by
  rw [List.take_append_eq_append_take, List.take_of_length_le hk]

theorem forward_read_str_short (length : Nat) (st : DeState)
    (h : st.slice.length < length) :
    forward_read_str length st = .err .SizeLimit st := by
  unfold forward_read_str
  rw [if_pos (by omega)]

theorem forward_read_bytes_short (length : Nat) (st : DeState)
    (h : st.slice.length < length) :
    forward_read_bytes length st = .err .SizeLimit st := by
  unfold forward_read_bytes
  rw [if_pos (by omega)]

theorem read_exact_short (n : Nat) (st : DeState) (h : st.slice.length < n) :
    read_exact n st = .err .SizeLimit st := by
  unfold read_exact
  rw [if_pos (by omega)]

theorem deser_num_shape_short (e : Endian) (w : Nat) (mk : Nat → Value) (s : Shape)
    (hunf : ∀ st : DeState, deserValue e s st =
      (match deserialize_num e w st with
       | .ok m st1 => .ok (mk m) st1
       | .err er st1 => .err er st1))
    (bs : List Nat) (hlen : bs.length < w) (u : Nat) :
    deserValue e s ⟨bs, ⟨u, Option.none⟩⟩ =
      .err .SizeLimit ⟨bs, ⟨u + w, Option.none⟩⟩ := by
  simp only [hunf,
    deserialize_num_short e w ⟨bs, ⟨u, Option.none⟩⟩ ⟨u + w, Option.none⟩ rfl hlen]

theorem deser_u8_shape_empty (e : Endian) (mk : Nat → Value) (s : Shape)
    (hunf : ∀ st : DeState, deserValue e s st =
      (match deserialize_u8 st with
       | .ok m st1 => .ok (mk m) st1
       | .err er st1 => .err er st1)) (u : Nat) :
    deserValue e s ⟨[], ⟨u, Option.none⟩⟩ =
      .err .SizeLimit ⟨[], ⟨u + 1, Option.none⟩⟩ := by
  simp only [hunf, deserialize_u8_empty ⟨u, Option.none⟩ ⟨u + 1, Option.none⟩ rfl]

theorem deser_trunc_aux :
    ∀ N, ∀ v : Value, sizeOf v ≤ N → ∀ s : Shape, hasShape s v = true →
      ∀ (e : Endian) (k u : Nat), k < (encBytes e v).length →
        ∃ er st, deserValue e s ⟨(encBytes e v).take k, ⟨u, Option.none⟩⟩ = .err er st ∧
          (er = .SizeLimit ∨ er = .InvalidCharEncoding) := by
  intro N
  induction N with
  | zero =>
    intro v hv
    exact absurd hv (by have := value_one_le_sizeOf v; omega)
  | succ N ih =>
    intro v hv s h e k u hk
    cases v with
    | unit => simp [encBytes] at hk
    | bool b =>
      cases s <;> try exact Bool.noConfusion h
      have hk0 : k = 0 := by simp [encBytes] at hk; omega
      subst hk0
      refine ⟨.SizeLimit, ⟨[], ⟨u + 1, Option.none⟩⟩, ?_, Or.inl rfl⟩
      have hu8 := deserialize_u8_empty ⟨u, Option.none⟩ ⟨u + 1, Option.none⟩ rfl
      simp only [List.take_zero, deserValue, deserialize_bool, hu8]
    | u8 n =>
      cases s <;> try exact Bool.noConfusion h
      have hk0 : k = 0 := by simp [encBytes] at hk; omega
      subst hk0
      refine ⟨.SizeLimit, ⟨[], ⟨u + 1, Option.none⟩⟩, ?_, Or.inl rfl⟩
      simpa using deser_u8_shape_empty e Value.u8 .u8 (fun st => by simp [deserValue]) u
    | i8 i =>
      cases s <;> try exact Bool.noConfusion h
      have hk0 : k = 0 := by simp [encBytes] at hk; omega
      subst hk0
      refine ⟨.SizeLimit, ⟨[], ⟨u + 1, Option.none⟩⟩, ?_, Or.inl rfl⟩
      simpa using deser_u8_shape_empty e (fun m => Value.i8 (intFromWire 1 m)) .i8
        (fun st => by simp [deserValue]) u
    | u16 n =>
      cases s <;> try exact Bool.noConfusion h
      refine ⟨.SizeLimit, ⟨(encBytes e (Value.u16 n)).take k, ⟨u + 2, Option.none⟩⟩,
        ?_, Or.inl rfl⟩
      exact deser_num_shape_short e 2 Value.u16 .u16 (fun st => by simp [deserValue]) _
        (by simp [encBytes, writeN_length] at hk ⊢; omega) u
    | u32 n =>
      cases s <;> try exact Bool.noConfusion h
      refine ⟨.SizeLimit, ⟨(encBytes e (Value.u32 n)).take k, ⟨u + 4, Option.none⟩⟩,
        ?_, Or.inl rfl⟩
      exact deser_num_shape_short e 4 Value.u32 .u32 (fun st => by simp [deserValue]) _
        (by simp [encBytes, writeN_length] at hk ⊢; omega) u
    | u64 n =>
      cases s <;> try exact Bool.noConfusion h
      refine ⟨.SizeLimit, ⟨(encBytes e (Value.u64 n)).take k, ⟨u + 8, Option.none⟩⟩,
        ?_, Or.inl rfl⟩
      exact deser_num_shape_short e 8 Value.u64 .u64 (fun st => by simp [deserValue]) _
        (by simp [encBytes, writeN_length] at hk ⊢; omega) u
    | i16 i =>
      cases s <;> try exact Bool.noConfusion h
      refine ⟨.SizeLimit, ⟨(encBytes e (Value.i16 i)).take k, ⟨u + 2, Option.none⟩⟩,
        ?_, Or.inl rfl⟩
      exact deser_num_shape_short e 2 (fun m => Value.i16 (intFromWire 2 m)) .i16
        (fun st => by simp [deserValue]) _
        (by simp [encBytes, writeN_length] at hk ⊢; omega) u
    | i32 i =>
      cases s <;> try exact Bool.noConfusion h
      refine ⟨.SizeLimit, ⟨(encBytes e (Value.i32 i)).take k, ⟨u + 4, Option.none⟩⟩,
        ?_, Or.inl rfl⟩
      exact deser_num_shape_short e 4 (fun m => Value.i32 (intFromWire 4 m)) .i32
        (fun st => by simp [deserValue]) _
        (by simp [encBytes, writeN_length] at hk ⊢; omega) u
    | i64 i =>
      cases s <;> try exact Bool.noConfusion h
      refine ⟨.SizeLimit, ⟨(encBytes e (Value.i64 i)).take k, ⟨u + 8, Option.none⟩⟩,
        ?_, Or.inl rfl⟩
      exact deser_num_shape_short e 8 (fun m => Value.i64 (intFromWire 8 m)) .i64
        (fun st => by simp [deserValue]) _
        (by simp [encBytes, writeN_length] at hk ⊢; omega) u
    | f32 bits =>
      cases s <;> try exact Bool.noConfusion h
      refine ⟨.SizeLimit, ⟨(encBytes e (Value.f32 bits)).take k, ⟨u + 4, Option.none⟩⟩,
        ?_, Or.inl rfl⟩
      exact deser_num_shape_short e 4 Value.f32 .f32 (fun st => by simp [deserValue]) _
        (by simp [encBytes, writeN_length] at hk ⊢; omega) u
    | f64 bits =>
      cases s <;> try exact Bool.noConfusion h
      refine ⟨.SizeLimit, ⟨(encBytes e (Value.f64 bits)).take k, ⟨u + 8, Option.none⟩⟩,
        ?_, Or.inl rfl⟩
      exact deser_num_shape_short e 8 Value.f64 .f64 (fun st => by simp [deserValue]) _
        (by simp [encBytes, writeN_length] at hk ⊢; omega) u
    | char c =>
      cases s <;> try exact Bool.noConfusion h
      have hc : isScalar c = true := h
      obtain ⟨b0, tail, henc, hwidth, _⟩ := encode_utf8_head_width c hc
      rcases Nat.eq_zero_or_pos k with hk0 | hkpos
      · subst hk0
        refine ⟨.SizeLimit, ⟨[], ⟨u, Option.none⟩⟩, ?_, Or.inl rfl⟩
        have hre := read_exact_short 1 ⟨[], ⟨u, Option.none⟩⟩ (by simp)
        simp only [List.take_zero, deserValue, deserialize_char, hre]
      · have hlen : k < tail.length + 1 := by
          have h3 := hk
          rw [show encBytes e (.char c) = encode_utf8 c from rfl, henc] at h3
          simpa using h3
        have htl : 1 ≤ tail.length := by omega
        have htake : (encBytes e (.char c)).take k = b0 :: tail.take (k - 1) := by
          rw [show encBytes e (.char c) = encode_utf8 c from rfl, henc]
          cases k with
          | zero => omega
          | succ k0 => simp
        refine ⟨.InvalidCharEncoding, ⟨tail.take (k - 1), ⟨u, Option.none⟩⟩, ?_, Or.inr rfl⟩
        rw [htake]
        have hre1 : read_exact 1 ⟨b0 :: tail.take (k - 1), ⟨u, Option.none⟩⟩ =
            .ok [b0] ⟨tail.take (k - 1), ⟨u, Option.none⟩⟩ := by
          simpa using read_exact_enc [b0] (tail.take (k - 1)) ⟨u, Option.none⟩
        simp only [deserValue, deserialize_char, hre1]
        rw [if_neg (by omega), if_neg (by omega)]
        have hre2 := read_exact_short (utf8_char_width b0 - 1)
          ⟨tail.take (k - 1), ⟨u, Option.none⟩⟩
          (by rw [hwidth]; simp [List.length_take]; omega)
        simp only [hre2]
    | str cs =>
      cases s <;> try exact Bool.noConfusion h
      have h2 : (cs.all isScalar && decide ((utf8Encode cs).length < 2 ^ 64)) = true := h
      simp only [Bool.and_eq_true, decide_eq_true_eq] at h2
      obtain ⟨hall, hlen64⟩ := h2
      have henc : encBytes e (.str cs) =
          writeN e 8 (utf8Encode cs).length ++ utf8Encode cs := rfl
      rcases lt_or_le k 8 with hk8 | hk8
      · have ht : (encBytes e (.str cs)).take k =
            (writeN e 8 (utf8Encode cs).length).take k := by
          rw [henc, take_append_small _ _ k (by rw [writeN_length]; omega)]
        refine ⟨.SizeLimit,
          ⟨(writeN e 8 (utf8Encode cs).length).take k, ⟨u + 8, Option.none⟩⟩,
          ?_, Or.inl rfl⟩
        rw [ht]
        have hshort := deserialize_num_short e 8
          ⟨(writeN e 8 (utf8Encode cs).length).take k, ⟨u, Option.none⟩⟩
          ⟨u + 8, Option.none⟩ rfl (by simp [writeN_length]; omega)
        simp only [deserValue, deserialize_str, hshort]
      · have ht : (encBytes e (.str cs)).take k =
            writeN e 8 (utf8Encode cs).length ++ (utf8Encode cs).take (k - 8) := by
          rw [henc, take_append_big _ _ k (by rw [writeN_length]; omega), writeN_length]
        refine ⟨.SizeLimit,
          ⟨(utf8Encode cs).take (k - 8), ⟨u + 8 + (utf8Encode cs).length, Option.none⟩⟩,
          ?_, Or.inl rfl⟩
        rw [ht]
        have hnum := deserialize_num_enc e 8 (utf8Encode cs).length
          ((utf8Encode cs).take (k - 8)) ⟨u, Option.none⟩ ⟨u + 8, Option.none⟩
          (by norm_num at hlen64 ⊢; omega) rfl
        have hrb := de_read_bytes_ok (utf8Encode cs).length
          ⟨(utf8Encode cs).take (k - 8), ⟨u + 8, Option.none⟩⟩
          ⟨u + 8 + (utf8Encode cs).length, Option.none⟩ rfl
        have hfs := forward_read_str_short (utf8Encode cs).length
          ⟨(utf8Encode cs).take (k - 8), ⟨u + 8 + (utf8Encode cs).length, Option.none⟩⟩
          (by
            rw [henc] at hk
            simp [writeN_length] at hk
            simp [List.length_take]
            omega)
        simp only [deserValue, deserialize_str, hnum, hrb, hfs]
    | bytes bs =>
      cases s <;> try exact Bool.noConfusion h
      have henc : encBytes e (.bytes bs) = writeN e 8 bs.length ++ bs := rfl
      rcases lt_or_le k 8 with hk8 | hk8
      · have ht : (encBytes e (.bytes bs)).take k = (writeN e 8 bs.length).take k := by
          rw [henc, take_append_small _ _ k (by rw [writeN_length]; omega)]
        refine ⟨.SizeLimit, ⟨(writeN e 8 bs.length).take k, ⟨u + 8, Option.none⟩⟩,
          ?_, Or.inl rfl⟩
        rw [ht]
        have hshort := deserialize_num_short e 8
          ⟨(writeN e 8 bs.length).take k, ⟨u, Option.none⟩⟩
          ⟨u + 8, Option.none⟩ rfl (by simp [writeN_length]; omega)
        simp only [deserValue, deserialize_bytes, hshort]
      · have h2 : (bs.all (fun x => decide (x < 2 ^ 8)) && decide (bs.length < 2 ^ 64)) =
            true := h
        simp only [Bool.and_eq_true, decide_eq_true_eq] at h2
        obtain ⟨_, hlen64⟩ := h2
        have ht : (encBytes e (.bytes bs)).take k =
            writeN e 8 bs.length ++ bs.take (k - 8) := by
          rw [henc, take_append_big _ _ k (by rw [writeN_length]; omega), writeN_length]
        refine ⟨.SizeLimit,
          ⟨bs.take (k - 8), ⟨u + 8 + bs.length, Option.none⟩⟩, ?_, Or.inl rfl⟩
        rw [ht]
        have hnum := deserialize_num_enc e 8 bs.length (bs.take (k - 8))
          ⟨u, Option.none⟩ ⟨u + 8, Option.none⟩ (by norm_num at hlen64 ⊢; omega) rfl
        have hrb := de_read_bytes_ok bs.length ⟨bs.take (k - 8), ⟨u + 8, Option.none⟩⟩
          ⟨u + 8 + bs.length, Option.none⟩ rfl
        have hfb := forward_read_bytes_short bs.length
          ⟨bs.take (k - 8), ⟨u + 8 + bs.length, Option.none⟩⟩
          (by
            rw [henc] at hk
            simp [writeN_length] at hk
            simp [List.length_take]
            omega)
        simp only [deserValue, deserialize_bytes, hnum, hrb, hfb]
    | none =>
      cases s <;> try exact Bool.noConfusion h
      have hk0 : k = 0 := by simp [encBytes] at hk; omega
      subst hk0
      refine ⟨.SizeLimit, ⟨[], ⟨u + 1, Option.none⟩⟩, ?_, Or.inl rfl⟩
      have hu8 := deserialize_u8_empty ⟨u, Option.none⟩ ⟨u + 1, Option.none⟩ rfl
      simp only [List.take_zero, deserValue, hu8]
    | some v =>
      cases s <;> try exact Bool.noConfusion h
      rename_i s'
      have hpayload : hasShape s' v = true := h
      have hszv : sizeOf v ≤ N := by simp at hv; omega
      rcases Nat.eq_zero_or_pos k with hk0 | hkpos
      · subst hk0
        refine ⟨.SizeLimit, ⟨[], ⟨u + 1, Option.none⟩⟩, ?_, Or.inl rfl⟩
        have hu8 := deserialize_u8_empty ⟨u, Option.none⟩ ⟨u + 1, Option.none⟩ rfl
        simp only [List.take_zero, deserValue, hu8]
      · have hkm : k - 1 < (encBytes e v).length := by
          simp [encBytes] at hk
          omega
        obtain ⟨er, st', hst', hker⟩ := ih v hszv s' hpayload e (k - 1) (u + 1) hkm
        refine ⟨er, st', ?_, hker⟩
        have htake : (encBytes e (.some v)).take k = 1 :: (encBytes e v).take (k - 1) := by
          rw [show encBytes e (.some v) = 1 :: encBytes e v from rfl]
          cases k with
          | zero => omega
          | succ k0 => simp
        rw [htake]
        have hu8 := deserialize_u8_enc 1 ((encBytes e v).take (k - 1)) ⟨u, Option.none⟩
          ⟨u + 1, Option.none⟩ rfl
        simp only [deserValue, hu8]
        simp [hst']
    | seq vs =>
      cases s <;> try exact Bool.noConfusion h
      rename_i s'
      have h2 : (hasShapeList s' vs && decide (vs.length < 2 ^ 64)) = true := h
      simp only [Bool.and_eq_true, decide_eq_true_eq] at h2
      obtain ⟨hsh, hlen64⟩ := h2
      have hsz : ∀ x ∈ vs, sizeOf x ≤ N := by
        intro x hx
        have h3 := List.sizeOf_lt_of_mem hx
        simp at hv
        omega
      have henc : encBytes e (.seq vs) = writeN e 8 vs.length ++ encBytesList e vs := rfl
      have truncList : ∀ (vs1 : List Value), hasShapeList s' vs1 = true →
          (∀ x ∈ vs1, sizeOf x ≤ N) → ∀ (k1 u1 : Nat), k1 < (encBytesList e vs1).length →
          ∃ er st, deserSeq e s' vs1.length
              ⟨(encBytesList e vs1).take k1, ⟨u1, Option.none⟩⟩ = .err er st ∧
            (er = .SizeLimit ∨ er = .InvalidCharEncoding) := by
        intro vs1
        induction vs1 with
        | nil =>
          intro _ _ k1 u1 hk1
          simp [encBytesList] at hk1
        | cons x xs ihx =>
          intro hshx hszx k1 u1 hk1
          have hshx2 : (hasShape s' x && hasShapeList s' xs) = true := hshx
          simp only [Bool.and_eq_true] at hshx2
          have hencc : encBytesList e (x :: xs) = encBytes e x ++ encBytesList e xs := rfl
          rcases lt_or_le k1 (encBytes e x).length with hsmall | hbig
          · obtain ⟨er, st', hst', hker⟩ := ih x (hszx x (List.mem_cons_self x xs)) s'
              hshx2.1 e k1 u1 hsmall
            refine ⟨er, st', ?_, hker⟩
            rw [hencc, take_append_small _ _ k1 (by omega)]
            simp only [List.length_cons, deserSeq, hst']
          · have hkm : k1 - (encBytes e x).length < (encBytesList e xs).length := by
              rw [hencc] at hk1
              simp at hk1
              omega
            have hx := deserValue_enc e s' x hshx2.1
              ((encBytesList e xs).take (k1 - (encBytes e x).length)) ⟨u1, Option.none⟩
              ⟨u1 + accSize x, Option.none⟩ rfl
            obtain ⟨er, st', hst', hker⟩ := ihx hshx2.2
              (fun y hy => hszx y (List.mem_cons_of_mem x hy))
              (k1 - (encBytes e x).length) (u1 + accSize x) hkm
            refine ⟨er, st', ?_, hker⟩
            rw [hencc, take_append_big _ _ k1 hbig]
            simp only [List.length_cons, deserSeq, hx, hst']
      rcases lt_or_le k 8 with hk8 | hk8
      · have ht : (encBytes e (.seq vs)).take k = (writeN e 8 vs.length).take k := by
          rw [henc, take_append_small _ _ k (by rw [writeN_length]; omega)]
        refine ⟨.SizeLimit, ⟨(writeN e 8 vs.length).take k, ⟨u + 8, Option.none⟩⟩,
          ?_, Or.inl rfl⟩
        rw [ht]
        have hshort := deserialize_num_short e 8
          ⟨(writeN e 8 vs.length).take k, ⟨u, Option.none⟩⟩ ⟨u + 8, Option.none⟩ rfl
          (by simp [writeN_length]; omega)
        simp only [deserValue, hshort]
      · have hkm : k - 8 < (encBytesList e vs).length := by
          rw [henc] at hk
          simp [writeN_length] at hk
          omega
        have ht : (encBytes e (.seq vs)).take k =
            writeN e 8 vs.length ++ (encBytesList e vs).take (k - 8) := by
          rw [henc, take_append_big _ _ k (by rw [writeN_length]; omega), writeN_length]
        have hnum := deserialize_num_enc e 8 vs.length
          ((encBytesList e vs).take (k - 8)) ⟨u, Option.none⟩ ⟨u + 8, Option.none⟩
          (by norm_num at hlen64 ⊢; omega) rfl
        obtain ⟨er, st', hst', hker⟩ := truncList vs hsh hsz (k - 8) (u + 8) hkm
        refine ⟨er, st', ?_, hker⟩
        rw [ht]
        simp only [deserValue, hnum, hst']
    | map ps =>
      cases s <;> try exact Bool.noConfusion h
      rename_i sk sv
      have h2 : (hasShapePairs sk sv ps && decide (ps.length < 2 ^ 64)) = true := h
      simp only [Bool.and_eq_true, decide_eq_true_eq] at h2
      obtain ⟨hsh, hlen64⟩ := h2
      have hsz : ∀ x ∈ ps, sizeOf x.1 ≤ N ∧ sizeOf x.2 ≤ N := by
        intro x hx
        obtain ⟨a, b⟩ := x
        have h3 := List.sizeOf_lt_of_mem hx
        simp at h3 hv
        constructor <;> simp <;> omega
      have henc : encBytes e (.map ps) = writeN e 8 ps.length ++ encBytesPairs e ps := rfl
      have truncPairs : ∀ (ps1 : List (Value × Value)), hasShapePairs sk sv ps1 = true →
          (∀ x ∈ ps1, sizeOf x.1 ≤ N ∧ sizeOf x.2 ≤ N) →
          ∀ (k1 u1 : Nat), k1 < (encBytesPairs e ps1).length →
          ∃ er st, deserMap e sk sv ps1.length
              ⟨(encBytesPairs e ps1).take k1, ⟨u1, Option.none⟩⟩ = .err er st ∧
            (er = .SizeLimit ∨ er = .InvalidCharEncoding) := by
        intro ps1
        induction ps1 with
        | nil =>
          intro _ _ k1 u1 hk1
          simp [encBytesPairs] at hk1
        | cons x xs ihx =>
          obtain ⟨a, b⟩ := x
          intro hshx hszx k1 u1 hk1
          have hshx2 : ((hasShape sk a && hasShape sv b) && hasShapePairs sk sv xs) =
              true := hshx
          simp only [Bool.and_eq_true] at hshx2
          have hsza := (hszx (a, b) (List.mem_cons_self _ xs)).1
          have hszb := (hszx (a, b) (List.mem_cons_self _ xs)).2
          simp only at hsza hszb
          have hencc : encBytesPairs e ((a, b) :: xs) =
              encBytes e a ++ (encBytes e b ++ encBytesPairs e xs) := by
            rw [show encBytesPairs e ((a, b) :: xs) =
              encBytes e a ++ encBytes e b ++ encBytesPairs e xs from rfl,
              List.append_assoc]
          rcases lt_or_le k1 (encBytes e a).length with hsa | hba
          · obtain ⟨er, st', hst', hker⟩ := ih a hsza sk hshx2.1.1 e k1 u1 hsa
            refine ⟨er, st', ?_, hker⟩
            rw [hencc, take_append_small _ _ k1 (by omega)]
            simp only [List.length_cons, deserMap, hst']
          · rcases lt_or_le (k1 - (encBytes e a).length) (encBytes e b).length with
              hsb | hbb
            · have ha := deserValue_enc e sk a hshx2.1.1
                ((encBytes e b).take (k1 - (encBytes e a).length))
                ⟨u1, Option.none⟩ ⟨u1 + accSize a, Option.none⟩ rfl
              obtain ⟨er, st', hst', hker⟩ := ih b hszb sv hshx2.1.2 e
                (k1 - (encBytes e a).length) (u1 + accSize a) hsb
              refine ⟨er, st', ?_, hker⟩
              rw [hencc, take_append_big _ _ k1 hba,
                take_append_small _ _ _ (by omega)]
              simp only [List.length_cons, deserMap, ha, hst']
            · have hkm : k1 - (encBytes e a).length - (encBytes e b).length <
                  (encBytesPairs e xs).length := by
                rw [hencc] at hk1
                simp at hk1
                omega
              have ha := deserValue_enc e sk a hshx2.1.1
                (encBytes e b ++ (encBytesPairs e xs).take
                  (k1 - (encBytes e a).length - (encBytes e b).length))
                ⟨u1, Option.none⟩ ⟨u1 + accSize a, Option.none⟩ rfl
              have hb := deserValue_enc e sv b hshx2.1.2
                ((encBytesPairs e xs).take
                  (k1 - (encBytes e a).length - (encBytes e b).length))
                ⟨u1 + accSize a, Option.none⟩
                ⟨u1 + accSize a + accSize b, Option.none⟩ rfl
              obtain ⟨er, st', hst', hker⟩ := ihx hshx2.2
                (fun y hy => hszx y (List.mem_cons_of_mem _ hy))
                (k1 - (encBytes e a).length - (encBytes e b).length)
                (u1 + accSize a + accSize b) hkm
              refine ⟨er, st', ?_, hker⟩
              rw [hencc, take_append_big _ _ k1 hba, take_append_big _ _ _ hbb]
              simp only [List.length_cons, deserMap, ha, hb, hst']
      rcases lt_or_le k 8 with hk8 | hk8
      · have ht : (encBytes e (.map ps)).take k = (writeN e 8 ps.length).take k := by
          rw [henc, take_append_small _ _ k (by rw [writeN_length]; omega)]
        refine ⟨.SizeLimit, ⟨(writeN e 8 ps.length).take k, ⟨u + 8, Option.none⟩⟩,
          ?_, Or.inl rfl⟩
        rw [ht]
        have hshort := deserialize_num_short e 8
          ⟨(writeN e 8 ps.length).take k, ⟨u, Option.none⟩⟩ ⟨u + 8, Option.none⟩ rfl
          (by simp [writeN_length]; omega)
        simp only [deserValue, hshort]
      · have hkm : k - 8 < (encBytesPairs e ps).length := by
          rw [henc] at hk
          simp [writeN_length] at hk
          omega
        have ht : (encBytes e (.map ps)).take k =
            writeN e 8 ps.length ++ (encBytesPairs e ps).take (k - 8) := by
          rw [henc, take_append_big _ _ k (by rw [writeN_length]; omega), writeN_length]
        have hnum := deserialize_num_enc e 8 ps.length
          ((encBytesPairs e ps).take (k - 8)) ⟨u, Option.none⟩ ⟨u + 8, Option.none⟩
          (by norm_num at hlen64 ⊢; omega) rfl
        obtain ⟨er, st', hst', hker⟩ := truncPairs ps hsh hsz (k - 8) (u + 8) hkm
        refine ⟨er, st', ?_, hker⟩
        rw [ht]
        simp only [deserValue, hnum, hst']
    | tuple vs =>
      cases s <;> try exact Bool.noConfusion h
      rename_i ss
      have hsz : ∀ x ∈ vs, sizeOf x ≤ N := by
        intro x hx
        have h3 := List.sizeOf_lt_of_mem hx
        simp at hv
        omega
      have truncTup : ∀ (ss1 : List Shape) (vs1 : List Value), hasShapeTuple ss1 vs1 = true →
          (∀ x ∈ vs1, sizeOf x ≤ N) → ∀ (k1 u1 : Nat), k1 < (encBytesList e vs1).length →
          ∃ er st, deserTuple e ss1
              ⟨(encBytesList e vs1).take k1, ⟨u1, Option.none⟩⟩ = .err er st ∧
            (er = .SizeLimit ∨ er = .InvalidCharEncoding) := by
        intro ss1
        induction ss1 with
        | nil =>
          intro vs1 hsh1 _ k1 u1 hk1
          cases vs1 with
          | nil => simp [encBytesList] at hk1
          | cons y ys => exact Bool.noConfusion hsh1
        | cons s0 ss0 ihs =>
          intro vs1 hsh1 hsz1 k1 u1 hk1
          cases vs1 with
          | nil => exact Bool.noConfusion hsh1
          | cons y ys =>
            have hsh2 : (hasShape s0 y && hasShapeTuple ss0 ys) = true := hsh1
            simp only [Bool.and_eq_true] at hsh2
            have hencc : encBytesList e (y :: ys) = encBytes e y ++ encBytesList e ys := rfl
            rcases lt_or_le k1 (encBytes e y).length with hsmall | hbig
            · obtain ⟨er, st', hst', hker⟩ := ih y (hsz1 y (List.mem_cons_self y ys)) s0
                hsh2.1 e k1 u1 hsmall
              refine ⟨er, st', ?_, hker⟩
              rw [hencc, take_append_small _ _ k1 (by omega)]
              simp only [deserTuple, hst']
            · have hkm : k1 - (encBytes e y).length < (encBytesList e ys).length := by
                rw [hencc] at hk1
                simp at hk1
                omega
              have hy := deserValue_enc e s0 y hsh2.1
                ((encBytesList e ys).take (k1 - (encBytes e y).length)) ⟨u1, Option.none⟩
                ⟨u1 + accSize y, Option.none⟩ rfl
              obtain ⟨er, st', hst', hker⟩ := ihs ys hsh2.2
                (fun z hz => hsz1 z (List.mem_cons_of_mem y hz))
                (k1 - (encBytes e y).length) (u1 + accSize y) hkm
              refine ⟨er, st', ?_, hker⟩
              rw [hencc, take_append_big _ _ k1 hbig]
              simp only [deserTuple, hy, hst']
      obtain ⟨er, st', hst', hker⟩ := truncTup ss vs h hsz k u
        (by simpa [encBytes] using hk)
      refine ⟨er, st', ?_, hker⟩
      rw [show encBytes e (.tuple vs) = encBytesList e vs from rfl]
      simp only [deserValue, hst']
    | variant idx p =>
      cases s <;> try exact Bool.noConfusion h
      rename_i variants
      have h2 : (decide (idx < 2 ^ 32) &&
          (match variants.get? idx with
           | Option.some s1 => hasShape s1 p
           | Option.none => false)) = true := h
      simp only [Bool.and_eq_true, decide_eq_true_eq] at h2
      obtain ⟨hidx, hmatch⟩ := h2
      cases hg : variants.get? idx with
      | none =>
        have hg2 := hg
        rw [List.get?_eq_getElem?] at hg2
        simp [hg, hg2] at hmatch
      | some s' =>
        have hg2 := hg
        rw [List.get?_eq_getElem?] at hg2
        have hs' : hasShape s' p = true := by
          first
          | simpa [hg] using hmatch
          | simpa [hg2] using hmatch
        have hszp : sizeOf p ≤ N := by simp at hv; omega
        have henc : encBytes e (.variant idx p) = writeN e 4 idx ++ encBytes e p := rfl
        rcases lt_or_le k 4 with hk4 | hk4
        · have ht : (encBytes e (.variant idx p)).take k = (writeN e 4 idx).take k := by
            rw [henc, take_append_small _ _ k (by rw [writeN_length]; omega)]
          refine ⟨.SizeLimit, ⟨(writeN e 4 idx).take k, ⟨u + 4, Option.none⟩⟩,
            ?_, Or.inl rfl⟩
          rw [ht]
          have hshort := deserialize_num_short e 4
            ⟨(writeN e 4 idx).take k, ⟨u, Option.none⟩⟩ ⟨u + 4, Option.none⟩ rfl
            (by simp [writeN_length]; omega)
          simp only [deserValue, hshort]
        · have hkm : k - 4 < (encBytes e p).length := by
            rw [henc] at hk
            simp [writeN_length] at hk
            omega
          have ht : (encBytes e (.variant idx p)).take k =
              writeN e 4 idx ++ (encBytes e p).take (k - 4) := by
            rw [henc, take_append_big _ _ k (by rw [writeN_length]; omega), writeN_length]
          have hnum := deserialize_num_enc e 4 idx ((encBytes e p).take (k - 4))
            ⟨u, Option.none⟩ ⟨u + 4, Option.none⟩ (by norm_num at hidx ⊢; omega) rfl
          obtain ⟨er, st', hst', hker⟩ := ih p hszp s' hs' e (k - 4) (u + 4) hkm
          refine ⟨er, st', ?_, hker⟩
          rw [ht]
          simp only [deserValue, hnum]
          split
          · rename_i s'' heq
            rw [hg] at heq
            injection heq with heq2
            subst heq2
            simp only [hst']
          · rename_i heq
            rw [hg] at heq
            cases heq

theorem read_exact_ok (n : Nat) (st : DeState) (h : n ≤ st.slice.length) :
    read_exact n st = .ok (st.slice.take n) ⟨st.slice.drop n, st.limit⟩ := by
  unfold read_exact
  rw [if_neg (by omega)]

theorem write_str_ok (bs : List Nat) (st : SerState)
    (h : st.data.length + bs.length ≤ st.cap) :
    write_str bs st = .ok ⟨st.data ++ bs, st.cap⟩ := by
  induction bs generalizing st with
  | nil =>
    obtain ⟨data, cap⟩ := st
    simp [write_str]
  | cons b bs ih =>
    obtain ⟨data, cap⟩ := st
    simp only [List.length_cons] at h
    simp only [write_str, tryPush]
    rw [if_pos (show data.length < cap by omega)]
    show write_str bs ⟨data ++ [b], cap⟩ = .ok ⟨data ++ b :: bs, cap⟩
    rw [ih ⟨data ++ [b], cap⟩ (by simp; omega)]
    simp

theorem write_str_err (bs : List Nat) (st : SerState)
    (hst : st.data.length ≤ st.cap)
    (h : st.cap < st.data.length + bs.length) :
    ∃ st1, write_str bs st = .err .Fmt st1 := by
  induction bs generalizing st with
  | nil =>
    exfalso
    simp at h
    omega
  | cons b bs ih =>
    obtain ⟨data, cap⟩ := st
    simp only [List.length_cons] at h
    by_cases hfull : data.length < cap
    · simp only [write_str, tryPush]
      rw [if_pos hfull]
      show ∃ st1, write_str bs ⟨data ++ [b], cap⟩ = .err .Fmt st1
      exact ih ⟨data ++ [b], cap⟩ (by simp; omega) (by simp; omega)
    · simp only [write_str, tryPush]
      rw [if_neg hfull]
      exact ⟨_, rfl⟩

theorem collect_str_ok (e : Endian) (bs data : List Nat) (cap : Nat)
    (h : data.length + 8 + bs.length ≤ cap) :
    collect_str e bs ⟨data, cap⟩ = .ok ⟨data ++ writeN e 8 bs.length ++ bs, cap⟩ := by
  have hz : (writeN e 8 0).length = 8 := writeN_length e 8 0
  have hp : pushAll (writeN e 8 0) ⟨data, cap⟩ = .ok ⟨data ++ writeN e 8 0, cap⟩ :=
    pushAll_ok _ _ (by simp [hz]; omega)
  have hw : write_str bs ⟨data ++ writeN e 8 0, cap⟩ =
      .ok ⟨(data ++ writeN e 8 0) ++ bs, cap⟩ :=
    write_str_ok _ _ (by simp [hz]; omega)
  have ht : ((data ++ writeN e 8 0) ++ bs).take data.length = data := by
    rw [List.append_assoc]
    exact take_append_of_length data.length data _ rfl
  have hdr : ((data ++ writeN e 8 0) ++ bs).drop (data.length + 8) = bs :=
    drop_append_of_length (data.length + 8) (data ++ writeN e 8 0) bs
      (by simp only [List.length_append, hz])
  have hl : ((data ++ writeN e 8 0) ++ bs).length - data.length - 8 = bs.length := by
    simp only [List.length_append, hz]
    omega
  simp only [collect_str, hp, hw, ht, hdr, hl]

theorem collect_str_fmt_err (e : Endian) (bs data : List Nat) (cap : Nat)
    (h8 : data.length + 8 ≤ cap) (h : cap < data.length + 8 + bs.length) :
    ∃ st1, collect_str e bs ⟨data, cap⟩ = .err .Fmt st1 := by
  have hz : (writeN e 8 0).length = 8 := writeN_length e 8 0
  have hp : pushAll (writeN e 8 0) ⟨data, cap⟩ = .ok ⟨data ++ writeN e 8 0, cap⟩ :=
    pushAll_ok _ _ (by simp [hz]; omega)
  obtain ⟨st1, hw⟩ := write_str_err bs ⟨data ++ writeN e 8 0, cap⟩
    (by simp [hz]; omega) (by simp [hz]; omega)
  exact ⟨st1, by simp only [collect_str, hp, hw]⟩

theorem collect_str_cap_err (e : Endian) (bs data : List Nat) (cap : Nat)
    (hd : data.length ≤ cap) (h : cap < data.length + 8) :
    ∃ b st1, collect_str e bs ⟨data, cap⟩ = .err (.CapacityError b) st1 := by
  obtain ⟨b, st1, hp⟩ := pushAll_err (writeN e 8 0) ⟨data, cap⟩ hd
    (by simp only [writeN_length]; omega)
  exact ⟨b, st1, by simp only [collect_str, hp]⟩

/-! ## The claims -/

/-- C1: for every value V of a shape in the codec's value universe, every
endianness E, and every size limit large enough to hold V's encoding,
decoding the bytes produced by encoding V (with the same endianness and
limit) succeeds and yields a value semantically equal to V. -/
theorem C1_round_trip (e : Endian) (s : Shape) (v : Value) (h : hasShape s v = true)
    (cap : Nat) (st : SerState) (henc : serValue e v ⟨[], cap⟩ = .ok st)
    (L L1 : Limit) (hL : L.add st.data.length = .ok L1) :
    ∃ L2, deserValue e s ⟨st.data, L⟩ = .ok v ⟨[], L2⟩ := by
  obtain ⟨hst, hcap⟩ := serValue_ok_inv e v cap st henc
  subst hst
  obtain ⟨L2, hL2⟩ := Limit.add_le L _ (accSize v) L1 hL (accSize_le v e)
  refine ⟨L2, ?_⟩
  have hd := deserValue_enc e s v h [] L L2 hL2
  simpa using hd

theorem C1_witness :
    (∃ L2, deserValue .little .u16 ⟨[5, 1], ⟨0, Option.none⟩⟩ =
      .ok (.u16 261) ⟨[], L2⟩) ∧ hasShape .u16 (.u16 261) = true :=
  ⟨C1_round_trip .little .u16 (.u16 261) rfl 2 ⟨[5, 1], 2⟩ rfl ⟨0, Option.none⟩
    ⟨2, Option.none⟩ rfl, rfl⟩

/-- C2: the byte count the size-checker reports for V equals the number of
bytes the encoder appends for V, which equals the number of bytes the
decoder consumes when decoding V's shape from that encoding (it returns
exactly the unconsumed suffix `rest`). -/
theorem C2_size_agreement (e : Endian) (s : Shape) (v : Value) (h : hasShape s v = true)
    (cap : Nat) (st : SerState) (henc : serValue e v ⟨[], cap⟩ = .ok st) :
    sizeCheckValue v ⟨0, Option.none⟩ = .ok ⟨st.data.length, Option.none⟩ ∧
    ∀ rest : List Nat, ∃ L2,
      deserValue e s ⟨st.data ++ rest, ⟨0, Option.none⟩⟩ = .ok v ⟨rest, L2⟩ := by
  obtain ⟨hst, hcap⟩ := serValue_ok_inv e v cap st henc
  subst hst
  constructor
  · rw [sizeCheckValue_spec v e ⟨0, Option.none⟩, Limit.add_infinite]
    simp
  · intro rest
    exact ⟨⟨0 + accSize v, Option.none⟩,
      deserValue_enc e s v h rest ⟨0, Option.none⟩ ⟨0 + accSize v, Option.none⟩ rfl⟩

theorem C2_witness :
    sizeCheckValue (.u16 261) ⟨0, Option.none⟩ = .ok ⟨2, Option.none⟩ ∧
    ∃ L2, deserValue .little .u16 ⟨[5, 1] ++ [9], ⟨0, Option.none⟩⟩ =
      .ok (.u16 261) ⟨[9], L2⟩ := by
  have h := C2_size_agreement .little .u16 (.u16 261) rfl 2 ⟨[5, 1], 2⟩ rfl
  exact ⟨h.1, h.2 [9]⟩

set_option maxRecDepth 4000 in
/-- C3 as stated is false on the code: the one-byte strict prefix of the
two-byte encoding of the character U+00E9 decodes to
`InvalidCharEncoding`, which is not `SizeLimit` (`deserialize_char`
converts the reader's under-length failure on continuation bytes into
`InvalidCharEncoding`). -/
theorem C3_counterexample :
    serValue .little (.char 0xE9) ⟨[], 2⟩ = .ok ⟨[0xC3, 0xA9], 2⟩ ∧
    deserValue .little .char ⟨[0xC3, 0xA9].take 1, ⟨0, Option.none⟩⟩ =
      .err .InvalidCharEncoding ⟨[], ⟨0, Option.none⟩⟩ ∧
    ErrorKind.InvalidCharEncoding ≠ ErrorKind.SizeLimit := by
  refine ⟨rfl, ?_, by decide⟩
  have hchar : deserialize_char ⟨[0xC3], ⟨0, Option.none⟩⟩ =
      .err .InvalidCharEncoding ⟨[], ⟨0, Option.none⟩⟩ := rfl
  simp only [List.take_succ_cons, List.take_zero, deserValue, hchar]

/-- C3 amended: for every strict prefix of an encoding, decoding fails and
never returns a value; the error kind is `SizeLimit`, except when the cut
falls inside a character's multi-byte UTF-8 encoding, where
`deserialize_char` reports `InvalidCharEncoding` instead. -/
theorem C3_truncation (e : Endian) (s : Shape) (v : Value) (h : hasShape s v = true)
    (cap : Nat) (st : SerState) (henc : serValue e v ⟨[], cap⟩ = .ok st)
    (k : Nat) (hk : k < st.data.length) :
    ∃ er st2, deserValue e s ⟨st.data.take k, ⟨0, Option.none⟩⟩ = .err er st2 ∧
      (er = .SizeLimit ∨ er = .InvalidCharEncoding) := by
  obtain ⟨hst, hcap⟩ := serValue_ok_inv e v cap st henc
  subst hst
  exact deser_trunc_aux (sizeOf v) v (le_refl _) s h e k 0 hk

theorem C3_witness :
    ∃ er st2, deserValue .little .u16 ⟨[5, 1].take 1, ⟨0, Option.none⟩⟩ = .err er st2 ∧
      (er = .SizeLimit ∨ er = .InvalidCharEncoding) :=
  C3_truncation .little .u16 (.u16 261) rfl 2 ⟨[5, 1], 2⟩ rfl 1 (by decide)

/-- C4 as stated is false on the code: the character 'a' size-checks to 1
byte, but decoding its encoding under cap 0 < 1 succeeds and returns the
character — `deserialize_char` reads through `read_exact` without ever
consulting the size limit. -/
theorem C4_counterexample :
    sizeCheckValue (.char 0x61) ⟨0, Option.none⟩ = .ok ⟨1, Option.none⟩ ∧
    (0 : Nat) < 1 ∧
    serValue .little (.char 0x61) ⟨[], 1⟩ = .ok ⟨[0x61], 1⟩ ∧
    deserValue .little .char ⟨[0x61], ⟨0, Option.some 0⟩⟩ =
      .ok (.char 0x61) ⟨[], ⟨0, Option.some 0⟩⟩ := by
  refine ⟨rfl, by decide, rfl, ?_⟩
  have hchar : deserialize_char ⟨[0x61], ⟨0, Option.some 0⟩⟩ =
      .ok 0x61 ⟨[], ⟨0, Option.some 0⟩⟩ := rfl
  simp only [deserValue, hchar]

/-- C4 amended: for every V with size-check n and cap c < n, encoding V
under cap c fails with `SizeLimit`; decoding V's encoding under cap c
fails with `SizeLimit` provided V contains no character value (the decoder
does not account character bytes to the limit). -/
theorem C4_cap_enforcement (e : Endian) (s : Shape) (v : Value) (h : hasShape s v = true)
    (n : Nat) (hn : sizeCheckValue v ⟨0, Option.none⟩ = .ok ⟨n, Option.none⟩)
    (c : Nat) (hc : c < n) :
    encodeWithLimit e c v = .error .SizeLimit ∧
    (charFree v = true → ∀ (cap : Nat) (st : SerState),
      serValue e v ⟨[], cap⟩ = .ok st →
      ∃ st2, deserValue e s ⟨st.data, ⟨0, Option.some c⟩⟩ = .err .SizeLimit st2) := by
  have hspec := sizeCheckValue_spec v e ⟨0, Option.none⟩
  rw [Limit.add_infinite] at hspec
  rw [hspec] at hn
  injection hn with hn2
  have hlen : (encBytes e v).length = n := by
    have h3 := congrArg Limit.used hn2
    simpa using h3
  constructor
  · have hchk : sizeCheckValue v ⟨0, Option.some c⟩ = .error .SizeLimit := by
      rw [sizeCheckValue_spec v e]
      simp only [Limit.add]
      rw [if_neg (by omega)]
    unfold encodeWithLimit
    simp only [hchk]
  · intro hcf cap st henc
    obtain ⟨hst, hcap⟩ := serValue_ok_inv e v cap st henc
    subst hst
    have hacc : accSize v = n := by rw [accSize_of_charFree v e hcf, hlen]
    have hadd : Limit.add ⟨0, Option.some c⟩ (accSize v) = .error .SizeLimit := by
      simp only [Limit.add]
      rw [if_neg (by omega)]
    have hd := deserValue_enc_limit_err e s v h [] ⟨0, Option.some c⟩ .SizeLimit hadd
    simpa using hd

theorem C4_witness :
    encodeWithLimit .little 1 (.u16 261) = .error .SizeLimit ∧
    ∃ st2, deserValue .little .u16 ⟨[5, 1], ⟨0, Option.some 1⟩⟩ =
      .err .SizeLimit st2 := by
  have h := C4_cap_enforcement .little .u16 (.u16 261) rfl 2 rfl 1 (by decide)
  exact ⟨h.1, h.2 rfl 2 ⟨[5, 1], 2⟩ rfl⟩

/-- C5 as stated is false on the code: `collect_str` is an encoder
operation, yet when the buffer fills while it writes the formatted bytes
the failure kind is `Fmt`, not `CapacityError` —
`ArrayVecWrite::write_str` discards the `CapacityError` with
`map_err(|_| fmt::Error)` and `collect_str`'s `?` converts the
`fmt::Error` into `ErrorKind::Fmt`.  With cap 8 the 8-byte length
placeholder exactly fills the buffer and the single formatted byte 0x68
overflows. -/
theorem C5_counterexample :
    collect_str .little [0x68] ⟨[], 8⟩ =
      .err .Fmt ⟨[0, 0, 0, 0, 0, 0, 0, 0], 8⟩ ∧
    ∀ b : Nat, ErrorKind.Fmt ≠ ErrorKind.CapacityError b := by
  refine ⟨rfl, ?_⟩
  intro b h
  cases h

/-- C5 amended: an encoder operation over the value universe succeeds
(appending exactly its framing bytes) when all the bytes it must append
fit in the caller's buffer and fails with kind `CapacityError` when the
buffer lacks room for a byte it must append; `collect_str` likewise
succeeds exactly when its 8-byte placeholder plus formatted bytes fit,
and keeps kind `CapacityError` only while pushing the placeholder — a
buffer that fills while the formatted bytes are written yields kind `Fmt`
instead. -/
theorem C5_capacity (e : Endian) (v : Value) (data : List Nat) (cap : Nat)
    (hd : data.length ≤ cap) :
    ((data.length + (encBytes e v).length ≤ cap →
      serValue e v ⟨data, cap⟩ = .ok ⟨data ++ encBytes e v, cap⟩) ∧
     (cap < data.length + (encBytes e v).length →
      ∃ b st1, serValue e v ⟨data, cap⟩ = .err (.CapacityError b) st1)) ∧
    ∀ bs : List Nat,
      (data.length + 8 + bs.length ≤ cap →
        collect_str e bs ⟨data, cap⟩ =
          .ok ⟨data ++ writeN e 8 bs.length ++ bs, cap⟩) ∧
      (data.length + 8 ≤ cap → cap < data.length + 8 + bs.length →
        ∃ st1, collect_str e bs ⟨data, cap⟩ = .err .Fmt st1) ∧
      (cap < data.length + 8 →
        ∃ b st1, collect_str e bs ⟨data, cap⟩ = .err (.CapacityError b) st1) := by
  refine ⟨⟨fun hfit => serValue_ok e v ⟨data, cap⟩ hfit,
          fun hover => serValue_err e v ⟨data, cap⟩ hd hover⟩, ?_⟩
  intro bs
  exact ⟨fun hfit => collect_str_ok e bs data cap hfit,
         fun h8 hover => collect_str_fmt_err e bs data cap h8 hover,
         fun hover => collect_str_cap_err e bs data cap hd hover⟩

theorem C5_witness :
    serValue .little (.u8 3) ⟨[7], 2⟩ = .ok ⟨[7, 3], 2⟩ ∧
    (∃ b st1, serValue .little (.u8 3) ⟨[7, 8], 2⟩ = .err (.CapacityError b) st1) ∧
    (∃ st1, collect_str .little [0x68] ⟨[], 8⟩ = .err .Fmt st1) ∧
    collect_str .little [0x68, 0x69] ⟨[], 10⟩ =
      .ok ⟨[] ++ writeN .little 8 2 ++ [0x68, 0x69], 10⟩ :=
  ⟨((C5_capacity .little (.u8 3) [7] 2 (by decide)).1).1 (by decide),
   ((C5_capacity .little (.u8 3) [7, 8] 2 (by decide)).1).2 (by decide),
   ((C5_capacity .little (.u8 0) [] 8 (by decide)).2 [0x68]).2.1 (by decide) (by decide),
   ((C5_capacity .little (.u8 0) [] 10 (by decide)).2 [0x68, 0x69]).1 (by decide)⟩

/-- C6: decoding a boolean reads exactly one byte; byte 0 yields `false`,
byte 1 yields `true`, and any other byte value b fails with
`InvalidBoolEncoding b`. -/
theorem C6_bool (e : Endian) (b : Nat) (hb : b < 256) (rest : List Nat)
    (l l1 : Limit) (hl : l.add 1 = .ok l1) :
    deserValue e .bool ⟨b :: rest, l⟩ =
      if b = 1 then .ok (.bool true) ⟨rest, l1⟩
      else if b = 0 then .ok (.bool false) ⟨rest, l1⟩
      else .err (.InvalidBoolEncoding b) ⟨rest, l1⟩ := by
  have hu8 := deserialize_u8_enc b rest l l1 hl
  by_cases hb1 : b = 1
  · subst hb1
    simp [deserValue, deserialize_bool, hu8]
  · by_cases hb0 : b = 0
    · subst hb0
      simp [deserValue, deserialize_bool, hu8]
    · simp [deserValue, deserialize_bool, hu8, hb0, hb1]

theorem C6_witness :
    deserValue .little .bool ⟨[2, 9], ⟨0, Option.none⟩⟩ =
      .err (.InvalidBoolEncoding 2) ⟨[9], ⟨1, Option.none⟩⟩ := by
  have h := C6_bool .little 2 (by decide) [9] ⟨0, Option.none⟩ ⟨1, Option.none⟩ rfl
  simpa using h

/-- C7: decoding an optional reads exactly one tag byte; tag 0 yields
`none`, tag 1 decodes the payload from the same stream and wraps it in
`some`, and any other byte value b fails with `InvalidTagEncoding b`. -/
theorem C7_option (e : Endian) (s : Shape) (b : Nat) (hb : b < 256) (rest : List Nat)
    (l l1 : Limit) (hl : l.add 1 = .ok l1) :
    deserValue e (.option s) ⟨b :: rest, l⟩ =
      if b = 0 then .ok .none ⟨rest, l1⟩
      else if b = 1 then
        (match deserValue e s ⟨rest, l1⟩ with
         | .ok v st2 => .ok (.some v) st2
         | .err er st2 => .err er st2)
      else .err (.InvalidTagEncoding b) ⟨rest, l1⟩ := by
  have hu8 := deserialize_u8_enc b rest l l1 hl
  by_cases hb0 : b = 0
  · subst hb0
    simp [deserValue, hu8]
  · by_cases hb1 : b = 1
    · subst hb1
      simp [deserValue, hu8]
    · simp [deserValue, hu8, hb0, hb1]

theorem C7_witness :
    deserValue .little (.option .u8) ⟨[1, 7], ⟨0, Option.none⟩⟩ =
      .ok (.some (.u8 7)) ⟨[], ⟨2, Option.none⟩⟩ := by
  have h := C7_option .little .u8 1 (by decide) [7] ⟨0, Option.none⟩ ⟨1, Option.none⟩ rfl
  rw [h]
  have hu8 : deserValue .little .u8 ⟨[7], ⟨1, Option.none⟩⟩ =
      .ok (.u8 7) ⟨[], ⟨2, Option.none⟩⟩ := by
    have h2 := deserialize_u8_enc 7 [] ⟨1, Option.none⟩ ⟨2, Option.none⟩ rfl
    simp [deserValue, h2]
  simp [hu8]

/-- C8: character decoding determines the byte width from the first byte
alone through the 256-entry table, whose widths are all in {0,1,2,3,4}:
width 0 fails immediately with `InvalidCharEncoding`; width 1 accepts the
(always valid) one-byte span; width W ≥ 2 reads W−1 further bytes and
validates the whole W-byte span as UTF-8, failing with
`InvalidCharEncoding` when those bytes are missing or the span is
invalid. -/
theorem C8_char (e : Endian) (bs : List Nat) (l : Limit) :
    (∀ b, utf8_char_width b ≤ 4) ∧
    (bs = [] → deserValue e .char ⟨bs, l⟩ = .err .SizeLimit ⟨bs, l⟩) ∧
    (∀ b rest, bs = b :: rest →
      (utf8_char_width b = 0 →
        deserValue e .char ⟨bs, l⟩ = .err .InvalidCharEncoding ⟨rest, l⟩) ∧
      (utf8_char_width b = 1 →
        deserValue e .char ⟨bs, l⟩ = .ok (.char b) ⟨rest, l⟩ ∧
        utf8Decode [b] = Option.some [b]) ∧
      (2 ≤ utf8_char_width b → rest.length < utf8_char_width b - 1 →
        deserValue e .char ⟨bs, l⟩ = .err .InvalidCharEncoding ⟨rest, l⟩) ∧
      (2 ≤ utf8_char_width b → utf8_char_width b - 1 ≤ rest.length →
        deserValue e .char ⟨bs, l⟩ =
          (match utf8Decode (b :: rest.take (utf8_char_width b - 1)) with
           | Option.some (c :: _) =>
             .ok (.char c) ⟨rest.drop (utf8_char_width b - 1), l⟩
           | _ => .err .InvalidCharEncoding ⟨rest.drop (utf8_char_width b - 1), l⟩))) := by
  refine ⟨utf8_char_width_le, ?_, ?_⟩
  · intro hbs
    subst hbs
    have hre := read_exact_short 1 ⟨[], l⟩ (by simp)
    simp only [deserValue, deserialize_char, hre]
  · intro b rest hbs
    subst hbs
    have hre1 : read_exact 1 ⟨b :: rest, l⟩ = .ok [b] ⟨rest, l⟩ := by
      simpa using read_exact_enc [b] rest l
    refine ⟨?_, ?_, ?_, ?_⟩
    · intro hw0
      simp only [deserValue, deserialize_char, hre1]
      rw [if_neg (by omega), if_pos hw0]
    · intro hw1
      have hb80 : b < 0x80 := by
        rcases lt_or_le b 256 with h2 | h2
        · rw [utf8_char_width_eq b h2] at hw1
          split_ifs at hw1 <;> omega
        · rw [utf8_char_width_of_ge b h2] at hw1
          omega
      constructor
      · simp only [deserValue, deserialize_char, hre1]
        rw [if_pos hw1]
      · simp [utf8Decode, utf8DecodeLoop, utf8DecodeOne, hb80]
    · intro hw2 hmiss
      simp only [deserValue, deserialize_char, hre1]
      rw [if_neg (by omega), if_neg (by omega)]
      have hre2 := read_exact_short (utf8_char_width b - 1) ⟨rest, l⟩ hmiss
      simp only [hre2]
    · intro hw2 hsuff
      simp only [deserValue, deserialize_char, hre1]
      rw [if_neg (by omega), if_neg (by omega)]
      have hre2 := read_exact_ok (utf8_char_width b - 1) ⟨rest, l⟩ hsuff
      simp only [hre2]
      cases hdec : utf8Decode (b :: rest.take (utf8_char_width b - 1)) with
      | none => simp
      | some cs =>
        cases cs with
        | nil => simp
        | cons c cs2 => simp

set_option maxRecDepth 4000 in
theorem C8_witness :
    deserValue .little .char ⟨[0xF8], ⟨0, Option.none⟩⟩ =
      .err .InvalidCharEncoding ⟨[], ⟨0, Option.none⟩⟩ ∧
    deserValue .little .char ⟨[0x61], ⟨0, Option.none⟩⟩ =
      .ok (.char 0x61) ⟨[], ⟨0, Option.none⟩⟩ := by
  constructor
  · exact ((C8_char .little [0xF8] ⟨0, Option.none⟩).2.2 0xF8 [] rfl).1 (by decide)
  · exact (((C8_char .little [0x61] ⟨0, Option.none⟩).2.2 0x61 [] rfl).2.1 (by decide)).1

set_option maxRecDepth 4000 in
/-- C9: with little-endian byte order (and no limit involved), encoding
the string "hi" produces exactly `02 00 00 00 00 00 00 00 68 69`, and
encoding a newtype variant with index 2 carrying the u8 value 7 produces
exactly `02 00 00 00 07`. -/
theorem C9_concrete :
    serValue .little (.str [0x68, 0x69]) ⟨[], 10⟩ =
      .ok ⟨[0x02, 0, 0, 0, 0, 0, 0, 0, 0x68, 0x69], 10⟩ ∧
    serValue .little (.variant 2 (.u8 7)) ⟨[], 5⟩ =
      .ok ⟨[0x02, 0, 0, 0, 0x07], 5⟩ :=
  ⟨rfl, rfl⟩

/-- C10: when a string read fails UTF-8 validation, `forward_read_str`
returns `InvalidUtf8Encoding` and the reader state — in particular the
unread slice, which still begins at the first byte of the length-prefixed
string payload — is unchanged. -/
theorem C10_no_advance (len : Nat) (st : DeState) (hlen : len ≤ st.slice.length)
    (hbad : utf8Decode (st.slice.take len) = Option.none) :
    forward_read_str len st = .err .InvalidUtf8Encoding st := by
  unfold forward_read_str
  rw [if_neg (by omega), hbad]

theorem C10_witness :
    forward_read_str 1 ⟨[0xFF], ⟨0, Option.none⟩⟩ =
      .err .InvalidUtf8Encoding ⟨[0xFF], ⟨0, Option.none⟩⟩ :=
  C10_no_advance 1 ⟨[0xFF], ⟨0, Option.none⟩⟩ (by decide) (by decide)

end Bincode
